import Mathlib

/-!
Shallow embedding of `src/cgpa_calculator.cpp` (class `WordScrambleGame`, a
word-scramble game session) and proofs about it.

Modelling conventions:
* C++ `std::string` is Lean `String` (operated on through its `List Char` data).
* C++ `int` / `size_t` are `ℤ` / `ℕ`; the values involved in the claims stay far
  from the 32-bit range, so wrap-around is not modelled.
* C++ `double` is `ℚ`; every arithmetic operation the program performs on its
  doubles (sums of integer millisecond counts, ratios, fixed multipliers) is
  exact at these magnitudes, so the rational model is faithful.
* Wall-clock readings (`steady_clock::now()`) and file contents are explicit
  parameters: a file is `Option String` (`none` = the open failed), elapsed
  I/O time is a `ℚ` parameter, clock readings are `ℤ` millisecond counts.
* The Mersenne-twister RNG is an oracle `ℕ → ℕ`: `std::shuffle`'s draw for
  index `i` is `oracle i % (i+1)`, the Fisher–Yates contract of the library.
* `unordered_set` / `unordered_map` are lists with set/map semantics (the
  program never depends on their iteration order).
-/

namespace WordScramble

/-! ### Character and string helpers (translations of the C++ helpers) -/

/-- The characters `trim` strips: `" \t\n\r"` (from `WordScrambleGame::trim`). -/
def isTrimSpace (c : Char) : Bool :=
  c == ' ' || c == '\t' || c == '\n' || c == '\r'

/-- `trim` on raw character lists: drop trim-space characters from both ends,
mirroring `find_first_not_of` / `find_last_not_of` in `WordScrambleGame::trim`. -/
def trimList (l : List Char) : List Char :=
  ((l.dropWhile isTrimSpace).reverse.dropWhile isTrimSpace).reverse

/-- `WordScrambleGame::trim`. -/
def trim (s : String) : String := ⟨trimList s.data⟩

/-- `::tolower` in the default C locale: only `A`–`Z` are mapped. -/
def toLowerChar (c : Char) : Char :=
  if 'A' ≤ c ∧ c ≤ 'Z' then Char.ofNat (c.toNat + 32) else c

/-- `WordScrambleGame::toLowerCase`. -/
def toLowerCase (s : String) : String := ⟨s.data.map toLowerChar⟩

/-- `WordScrambleGame::caseInsensitiveCompare`. -/
def caseInsensitiveCompare (lhs rhs : String) : Bool :=
  toLowerCase lhs == toLowerCase rhs

/-- A character matched by the regex class `[A-Za-z]`. -/
def isAlphaChar (c : Char) : Bool :=
  (decide ('A' ≤ c) && decide (c ≤ 'Z')) || (decide ('a' ≤ c) && decide (c ≤ 'z'))

/-- `WordScrambleGame::isValidWord`: non-empty, length in `[2,20]`, and matching
`^[A-Za-z]+$`. -/
def isValidWord (w : String) : Bool :=
  if w.data.isEmpty then false
  else if w.data.length < 2 ∨ 20 < w.data.length then false
  else w.data.all isAlphaChar

/-! ### Data model -/

inductive Difficulty
  | easy
  | medium
  | hard
deriving DecidableEq

/-- The integer code stored in the `DIFFICULTY` CSV column
(`static_cast<int>(entry.difficulty)`). -/
def Difficulty.code : Difficulty → ℤ
  | .easy => 1
  | .medium => 2
  | .hard => 3

/-- `struct Metrics`. -/
structure Metrics where
  totalGuessTime : ℚ
  guessCount : ℕ
  fileOperations : ℕ
  totalFileIOTime : ℚ
  totalMemoryAllocated : ℕ
  peakMemoryUsage : ℕ
  scrambleCount : ℕ
deriving DecidableEq

/-- `struct LeaderboardEntry`. -/
structure LeaderboardEntry where
  rank : ℤ
  name : String
  score : ℤ
  games : ℤ
  attempts : ℤ
  averageTime : ℚ
  accuracy : ℚ
  averageGuessTime : ℚ
  difficulty : Difficulty
deriving DecidableEq

/-- The full mutable state of a `WordScrambleGame` object.  `lastGuessStart` is
a millisecond count since the clock epoch; the C++ default-constructed
`time_point` is the epoch itself, i.e. `0`. -/
structure GameState where
  words : List String
  uniqueWords : List String
  leaderboard : List LeaderboardEntry
  customScores : List (ℤ × ℤ)
  currentWord : String
  playerName : String
  lastGuessCorrect : Bool
  totalGuesses : ℕ
  correctGuesses : ℕ
  attempts : ℤ
  score : ℤ
  gamesPlayed : ℤ
  difficulty : Difficulty
  metrics : Metrics
  revealedPositions : Finset ℕ
  lastGuessStart : ℤ
deriving DecidableEq

/-- `sizeof(std::string)` on the x86-64 libstdc++ ABI the program targets. -/
def sizeofStdString : ℕ := 32

/-- `sizeof(LeaderboardEntry)` on the same ABI. -/
def sizeofLeaderboardEntry : ℕ := 88

/-- `WordScrambleGame::updateMemoryUsage`: recompute the heuristic byte
estimate and fold it into the running peak. -/
def updateMemoryUsage (s : GameState) : GameState :=
  let total :=
    s.words.length * sizeofStdString +
    (s.words.map (·.length)).sum +
    s.uniqueWords.length * sizeofStdString +
    s.leaderboard.length * sizeofLeaderboardEntry +
    (s.leaderboard.map (·.name.length)).sum +
    s.playerName.length
  { s with metrics :=
      { s.metrics with
        totalMemoryAllocated := total
        peakMemoryUsage := max s.metrics.peakMemoryUsage total } }

/-- The constructor: seed the four default words (and their lower-cased forms
in the uniqueness set), then take the first memory reading. -/
def initialState : GameState :=
  updateMemoryUsage
    { words := ["puzzle", "challenge", "example", "solution"]
      uniqueWords := ["puzzle", "challenge", "example", "solution"]
      leaderboard := []
      customScores := []
      currentWord := ""
      playerName := ""
      lastGuessCorrect := false
      totalGuesses := 0
      correctGuesses := 0
      attempts := 0
      score := 0
      gamesPlayed := 0
      difficulty := .easy
      metrics := ⟨0, 0, 0, 0, 0, 0, 0⟩
      revealedPositions := ∅
      lastGuessStart := 0 }

/-! ### Word management -/

/-- `WordScrambleGame::addWord`: trim, validate, reject case-insensitive
duplicates, otherwise append the trimmed word and record its lower-cased
form. -/
def addWord (s : GameState) (word : String) : Bool × GameState :=
  let trimmed := trim word
  if isValidWord trimmed = false then (false, s)
  else if toLowerCase trimmed ∈ s.uniqueWords then (false, s)
  else
    (true, updateMemoryUsage
      { s with
        words := s.words ++ [trimmed]
        uniqueWords := toLowerCase trimmed :: s.uniqueWords })

theorem addWord_invalid {s : GameState} {w : String}
    (h : isValidWord (trim w) = false) : addWord s w = (false, s) := by
  simp [addWord, h]

theorem addWord_dup {s : GameState} {w : String}
    (hv : isValidWord (trim w) = true)
    (hd : toLowerCase (trim w) ∈ s.uniqueWords) : addWord s w = (false, s) := by
  simp [addWord, hv, hd]

theorem addWord_ok {s : GameState} {w : String}
    (hv : isValidWord (trim w) = true)
    (hd : toLowerCase (trim w) ∉ s.uniqueWords) :
    addWord s w = (true, updateMemoryUsage
      { s with
        words := s.words ++ [trim w]
        uniqueWords := toLowerCase (trim w) :: s.uniqueWords }) := by
  simp [addWord, hv, hd]

/-- The representation invariant connecting the word list and the uniqueness
set: `uniqueWords` holds exactly the lower-cased forms of the accepted words. -/
def UniqueInv (s : GameState) : Prop :=
  (∀ x ∈ s.uniqueWords, x ∈ s.words.map toLowerCase) ∧
  (∀ x ∈ s.words.map toLowerCase, x ∈ s.uniqueWords)

instance (s : GameState) : Decidable (UniqueInv s) := by
  unfold UniqueInv; infer_instance

/-- The property claimed of accepted words: the stored (trimmed) word matches
`[A-Za-z]{2,20}`. -/
def MatchesAlpha2to20 (w : String) : Prop :=
  2 ≤ w.data.length ∧ w.data.length ≤ 20 ∧ ∀ c ∈ w.data, isAlphaChar c = true

theorem isValidWord_matches {w : String} (h : isValidWord w = true) :
    MatchesAlpha2to20 w := by
  unfold isValidWord at h
  split at h
  · exact absurd h (by simp)
  · split at h
    · exact absurd h (by simp)
    · next h1 h2 =>
      refine ⟨?_, ?_, ?_⟩
      · omega
      · omega
      · simpa [List.all_eq_true] using h

theorem addWord_preserves_inv (s : GameState) (w : String) (h : UniqueInv s) :
    UniqueInv (addWord s w).2 := by
  rcases hv : isValidWord (trim w) with _ | _
  · rw [addWord_invalid hv]; exact h
  · by_cases hd : toLowerCase (trim w) ∈ s.uniqueWords
    · rw [addWord_dup hv hd]; exact h
    · rw [addWord_ok hv hd]
      obtain ⟨h1, h2⟩ := h
      constructor
      · intro x hx
        simp only [updateMemoryUsage, List.mem_cons] at hx ⊢
        simp only [List.map_append, List.mem_append]
        rcases hx with rfl | hx
        · right; simp
        · left; exact h1 x hx
      · intro x hx
        simp only [updateMemoryUsage, List.map_append, List.mem_append] at hx
        simp only [updateMemoryUsage, List.mem_cons]
        rcases hx with hx | hx
        · right; exact h2 x hx
        · left; simp only [List.map_cons, List.map_nil, List.mem_singleton] at hx
          exact hx

/-- **C1.** Every word accepted by `addWord` matches `[A-Za-z]{2,20}` after
trimming, and no previously accepted word in the bank is case-insensitively
equal to it; invalid or duplicate inputs are rejected with `false` and leave
the whole state (in particular the word bank) unchanged.  The hypothesis is
the representation invariant tying the uniqueness set to the word list; it
holds initially and is preserved by `addWord` (`addWord_preserves_inv`). -/
theorem addWord_spec (s : GameState) (w : String) (hinv : UniqueInv s) :
    ((addWord s w).1 = true →
      MatchesAlpha2to20 (trim w) ∧
      (∀ u ∈ s.words, toLowerCase u ≠ toLowerCase (trim w)) ∧
      (addWord s w).2.words = s.words ++ [trim w]) ∧
    ((addWord s w).1 = false → (addWord s w).2 = s) := by
  rcases hv : isValidWord (trim w) with _ | _
  · rw [addWord_invalid hv]
    exact ⟨fun h => by simp at h, fun _ => rfl⟩
  · by_cases hd : toLowerCase (trim w) ∈ s.uniqueWords
    · rw [addWord_dup hv hd]
      exact ⟨fun h => by simp at h, fun _ => rfl⟩
    · rw [addWord_ok hv hd]
      refine ⟨fun _ => ⟨isValidWord_matches hv, ?_, ?_⟩, fun h => by simp at h⟩
      · intro u hu hequ
        exact hd (hinv.2 (toLowerCase (trim w))
          (by rw [← hequ]; exact List.mem_map_of_mem _ hu))
      · simp [updateMemoryUsage]

/-- Witness for C1 at concrete inputs: from `initialState` (whose invariant
holds by computation), `" Hello "` is accepted — it matches the pattern after
trimming, collides with no default word, and is appended — while the
case-insensitive duplicate `"PUZZLE"` is rejected leaving the state intact. -/
theorem addWord_spec_witness :
    (MatchesAlpha2to20 (trim " Hello ") ∧
      (∀ u ∈ initialState.words, toLowerCase u ≠ toLowerCase (trim " Hello ")) ∧
      (addWord initialState " Hello ").2.words = initialState.words ++ [trim " Hello "]) ∧
    (addWord initialState "PUZZLE").2 = initialState := by
  refine ⟨(addWord_spec initialState " Hello " (by decide)).1 (by decide),
         (addWord_spec initialState "PUZZLE" (by decide)).2 (by decide)⟩

/-! ### Scoring -/

/-- `std::round`: round half away from zero. -/
def cppRound (q : ℚ) : ℤ :=
  if 0 ≤ q then ⌊q + 1 / 2⌋ else ⌈q - 1 / 2⌉

/-- `WordScrambleGame::getDifficultyMultiplier`. -/
def difficultyMultiplier : Difficulty → ℚ
  | .easy => 1
  | .medium => 3 / 2
  | .hard => 2

/-- `customScores[wordLength] = reward` on the association-list model of the
`unordered_map`: overwrite an existing key, otherwise add the binding. -/
def setAssoc (l : List (ℤ × ℤ)) (k v : ℤ) : List (ℤ × ℤ) :=
  if l.any (fun kv => kv.1 == k) then
    l.map (fun kv => if kv.1 == k then (k, v) else kv)
  else l ++ [(k, v)]

/-- `WordScrambleGame::customizeScoring`. -/
def customizeScoring (s : GameState) (wordLength reward : ℤ) : GameState :=
  if wordLength ≤ 0 ∨ reward ≤ 0 then s
  else { s with customScores := setAssoc s.customScores wordLength reward }

/-- The base reward in `WordScrambleGame::updateScore`: `10 × length`,
overridden by the custom scoring table when it has an entry for the length. -/
def baseReward (s : GameState) : ℤ :=
  match s.customScores.find? (fun kv => kv.1 == (s.currentWord.length : ℤ)) with
  | some kv => kv.2
  | none => (s.currentWord.length : ℤ) * 10

/-- `WordScrambleGame::updateScore`. -/
def updateScore (s : GameState) : GameState :=
  if s.currentWord = "" ∨ s.lastGuessCorrect = false then s
  else
    updateMemoryUsage
      { s with score :=
          s.score + cppRound ((baseReward s : ℚ) * difficultyMultiplier s.difficulty) }

theorem updateScore_inactive {s : GameState}
    (h : s.currentWord = "" ∨ s.lastGuessCorrect = false) : updateScore s = s := by
  simp only [updateScore, if_pos h]

theorem updateScore_active {s : GameState}
    (h1 : s.currentWord ≠ "") (h2 : s.lastGuessCorrect = true) :
    updateScore s = updateMemoryUsage
      { s with score :=
          s.score + cppRound ((baseReward s : ℚ) * difficultyMultiplier s.difficulty) } := by
  have : ¬ (s.currentWord = "" ∨ s.lastGuessCorrect = false) := by
    rintro (h | h)
    · exact h1 h
    · rw [h2] at h; cases h
  simp only [updateScore, if_neg this]

theorem one_le_baseReward {s : GameState} (h1 : s.currentWord ≠ "")
    (hpos : ∀ kv ∈ s.customScores, 0 < kv.2) : 1 ≤ baseReward s := by
  unfold baseReward
  rcases hf : s.customScores.find? (fun kv => kv.1 == (s.currentWord.length : ℤ)) with _ | kv
  · simp only [hf]
    have hlen : 1 ≤ s.currentWord.length := by
      rcases Nat.eq_zero_or_pos s.currentWord.length with h0 | h0
      · exact absurd (String.ext (List.length_eq_zero.mp h0)) h1
      · exact h0
    have : (1 : ℤ) ≤ (s.currentWord.length : ℤ) := by exact_mod_cast hlen
    nlinarith
  · simp only [hf]
    exact hpos kv (List.mem_of_find?_eq_some hf)

theorem one_le_cppRound {q : ℚ} (h : 1 ≤ q) : 1 ≤ cppRound q := by
  unfold cppRound
  rw [if_pos (by linarith)]
  have : (1 : ℤ) = ⌊(3 : ℚ) / 2⌋ := by norm_num
  rw [this]
  exact Int.floor_le_floor (by linarith)

theorem one_le_mult (d : Difficulty) : 1 ≤ difficultyMultiplier d := by
  cases d <;> norm_num [difficultyMultiplier]

/-- **C2.** When the current target is non-empty and the last guess was
correct, `updateScore` adds exactly `round(reward × multiplier)` to the score
— `reward` being the custom-table entry for the target's length if present
and `10 × length` otherwise, the multiplier 1.0 / 1.5 / 2.0 for Easy / Medium
/ Hard — and this strictly increases the score whenever the custom rewards
are positive (the only kind `customizeScoring` records).  When the current
word is empty or the last guess was wrong, the state is untouched. -/
theorem updateScore_spec (s : GameState) :
    (s.currentWord ≠ "" → s.lastGuessCorrect = true →
      (updateScore s).score =
        s.score + cppRound ((baseReward s : ℚ) * difficultyMultiplier s.difficulty) ∧
      ((∀ kv ∈ s.customScores, 0 < kv.2) → s.score < (updateScore s).score)) ∧
    (s.currentWord = "" ∨ s.lastGuessCorrect = false → updateScore s = s) := by
  refine ⟨fun h1 h2 => ?_, updateScore_inactive⟩
  rw [updateScore_active h1 h2]
  have hscore : (updateMemoryUsage
      { s with score :=
          s.score + cppRound ((baseReward s : ℚ) * difficultyMultiplier s.difficulty) }).score =
      s.score + cppRound ((baseReward s : ℚ) * difficultyMultiplier s.difficulty) := rfl
  refine ⟨hscore, fun hpos => ?_⟩
  rw [hscore]
  have hb := one_le_baseReward h1 hpos
  have hm := one_le_mult s.difficulty
  have : (1 : ℚ) ≤ (baseReward s : ℚ) * difficultyMultiplier s.difficulty := by
    have hb' : (1 : ℚ) ≤ (baseReward s : ℚ) := by exact_mod_cast hb
    nlinarith
  have := one_le_cppRound this
  omega

/-- A concrete state for the spec's worked example: target `"puzzle"`, Easy
difficulty, empty custom table, last guess correct, score 7. -/
def puzzleOkState : GameState :=
  { initialState with currentWord := "puzzle", lastGuessCorrect := true, score := 7 }

/-- The same state with the last guess not correct. -/
def puzzleIdleState : GameState :=
  { initialState with currentWord := "puzzle", score := 7 }

/-- Witness for C2: the spec's own example.  From `puzzleOkState` the score
rises by exactly `round(60 × 1.0) = 60`; from `puzzleIdleState` (last guess
wrong) the state is unchanged. -/
theorem updateScore_spec_witness :
    ((updateScore puzzleOkState).score = 7 + 60 ∧
      (7 : ℤ) < (updateScore puzzleOkState).score) ∧
    updateScore puzzleIdleState = puzzleIdleState := by
  constructor
  · have h := (updateScore_spec puzzleOkState).1 (by decide) (by decide)
    have hb : baseReward puzzleOkState = 60 := rfl
    have hm : difficultyMultiplier puzzleOkState.difficulty = 1 := rfl
    refine ⟨?_, ?_⟩
    · rw [h.1, hb, hm]
      norm_num [cppRound, puzzleOkState]
    · exact h.2 (by decide)
  · exact (updateScore_spec puzzleIdleState).2 (by right; rfl)

/-- **C10.** `updateScore` does not clear `lastGuessCorrect`, so a second
consecutive call pays the full reward again: two calls add twice
`round(reward × multiplier)`. -/
theorem updateScore_not_idempotent (s : GameState)
    (h1 : s.currentWord ≠ "") (h2 : s.lastGuessCorrect = true) :
    (updateScore (updateScore s)).score =
      s.score + 2 * cppRound ((baseReward s : ℚ) * difficultyMultiplier s.difficulty) := by
  rw [updateScore_active h1 h2]
  have hcw : ∀ t : GameState, (updateMemoryUsage t).currentWord = t.currentWord := fun _ => rfl
  have hlg : ∀ t : GameState, (updateMemoryUsage t).lastGuessCorrect = t.lastGuessCorrect :=
    fun _ => rfl
  set t := { s with score :=
      s.score + cppRound ((baseReward s : ℚ) * difficultyMultiplier s.difficulty) }
    with ht
  have h1' : (updateMemoryUsage t).currentWord ≠ "" := h1
  have h2' : (updateMemoryUsage t).lastGuessCorrect = true := h2
  rw [updateScore_active h1' h2']
  have hbase : baseReward (updateMemoryUsage t) = baseReward s := rfl
  have hdiff : (updateMemoryUsage t).difficulty = s.difficulty := rfl
  have hsc : (updateMemoryUsage t).score = t.score := rfl
  show (updateMemoryUsage _).score = _
  rw [show ∀ u : GameState, (updateMemoryUsage u).score = u.score from fun _ => rfl]
  show (updateMemoryUsage t).score +
      cppRound ((baseReward (updateMemoryUsage t) : ℚ) *
        difficultyMultiplier (updateMemoryUsage t).difficulty) = _
  rw [hbase, hdiff, hsc, ht]
  ring

/-- Witness for C10: with target `"puzzle"`, Easy difficulty and score 7, two
consecutive `updateScore` calls land on `7 + 120`. -/
theorem updateScore_not_idempotent_witness :
    (updateScore (updateScore puzzleOkState)).score = 7 + 2 * 60 := by
  have h := updateScore_not_idempotent puzzleOkState (by decide) (by decide)
  have hb : baseReward puzzleOkState = 60 := rfl
  have hm : difficultyMultiplier puzzleOkState.difficulty = 1 := rfl
  rw [h, hb, hm]
  norm_num [cppRound, puzzleOkState]

/-! ### Guess checking -/

/-- `WordScrambleGame::checkGuess`.  `now₁` and `now₂` are the two
`steady_clock::now()` readings (millisecond counts); the C++ default
`time_point` is the epoch, so `lastGuessStart = 0` means "timer never set". -/
def checkGuess (s : GameState) (guess : String) (now₁ now₂ : ℤ) : Bool × GameState :=
  let guessTimeDelta : ℚ :=
    if s.lastGuessStart ≠ 0 then
      (((if now₁ - s.lastGuessStart ≤ 0 then 1 else now₁ - s.lastGuessStart) : ℤ) : ℚ)
    else 1
  let correct := caseInsensitiveCompare guess s.currentWord
  (correct,
    { s with
      metrics := { s.metrics with
        totalGuessTime := s.metrics.totalGuessTime + guessTimeDelta
        guessCount := s.metrics.guessCount + 1 }
      lastGuessStart := now₂
      totalGuesses := s.totalGuesses + 1
      attempts := s.attempts + 1
      correctGuesses := s.correctGuesses + (if correct then 1 else 0)
      lastGuessCorrect := correct })

/-- **C7.** `checkGuess` returns `true` exactly when the guess is
case-insensitively equal to the current target; it bumps the lifetime guess
counter, the guess-count metric and the per-round attempt counter by one each,
bumps the correct-guess counter by one exactly when it returns `true`, and
adds at least one time unit to the cumulative guess-time metric (the recorded
delta is floored at 1). -/
theorem checkGuess_spec (s : GameState) (g : String) (now₁ now₂ : ℤ) :
    ((checkGuess s g now₁ now₂).1 = true ↔ toLowerCase g = toLowerCase s.currentWord) ∧
    (checkGuess s g now₁ now₂).2.totalGuesses = s.totalGuesses + 1 ∧
    (checkGuess s g now₁ now₂).2.metrics.guessCount = s.metrics.guessCount + 1 ∧
    (checkGuess s g now₁ now₂).2.attempts = s.attempts + 1 ∧
    (checkGuess s g now₁ now₂).2.correctGuesses =
      s.correctGuesses + (if (checkGuess s g now₁ now₂).1 = true then 1 else 0) ∧
    s.metrics.totalGuessTime + 1 ≤ (checkGuess s g now₁ now₂).2.metrics.totalGuessTime := by
  refine ⟨?_, rfl, rfl, rfl, ?_, ?_⟩
  · show (caseInsensitiveCompare g s.currentWord = true ↔ _)
    simp [caseInsensitiveCompare]
  · rcases caseInsensitiveCompare g s.currentWord with _ | _ <;> rfl
  · show s.metrics.totalGuessTime + 1 ≤ s.metrics.totalGuessTime +
      (if s.lastGuessStart ≠ 0 then
        (((if now₁ - s.lastGuessStart ≤ 0 then 1 else now₁ - s.lastGuessStart) : ℤ) : ℚ)
      else 1)
    have h1 : (1 : ℚ) ≤
        (if s.lastGuessStart ≠ 0 then
          (((if now₁ - s.lastGuessStart ≤ 0 then 1 else now₁ - s.lastGuessStart) : ℤ) : ℚ)
        else 1) := by
      split
      · have : (1 : ℤ) ≤ (if now₁ - s.lastGuessStart ≤ 0 then 1 else now₁ - s.lastGuessStart) := by
          split <;> omega
        exact_mod_cast this
      · exact le_refl 1
    linarith

/-! ### Leaderboard sorting

The C++ code sorts with the strict comparator

    if (lhs.score == rhs.score) return lhs.accuracy > rhs.accuracy;
    return lhs.score > rhs.score;

`std::sort` guarantees the output is a permutation of the input that is
sorted with respect to the comparator; we realise that contract with an
insertion sort over the same comparator. -/

/-- The comparator passed to `std::sort` in `updateLeaderboard` /
`loadLeaderboardFromFile`. -/
def lbLess (lhs rhs : LeaderboardEntry) : Bool :=
  if lhs.score = rhs.score then decide (rhs.accuracy < lhs.accuracy)
  else decide (rhs.score < lhs.score)

/-- "`a` is allowed to precede `b`" — the non-strict order the sorted output
satisfies: descending score, ties broken by descending accuracy. -/
def lbGe (a b : LeaderboardEntry) : Prop :=
  b.score < a.score ∨ (a.score = b.score ∧ b.accuracy ≤ a.accuracy)

theorem lbLess_eq_false_iff {a b : LeaderboardEntry} :
    lbLess b a = false ↔ lbGe a b := by
  unfold lbLess lbGe
  by_cases h : b.score = a.score
  · rw [if_pos h]
    simp only [decide_eq_false_iff_not, not_lt]
    constructor
    · intro hle
      exact Or.inr ⟨h.symm, hle⟩
    · rintro (hlt | ⟨-, hle⟩)
      · omega
      · exact hle
  · rw [if_neg h]
    simp only [decide_eq_false_iff_not, not_lt]
    constructor
    · intro hle
      rcases lt_or_eq_of_le hle with hlt | he
      · exact Or.inl hlt
      · exact absurd he h
    · rintro (hlt | ⟨he, -⟩)
      · exact le_of_lt hlt
      · exact absurd he.symm h

theorem lbLess_eq_true_imp {a b : LeaderboardEntry} (h : lbLess a b = true) :
    lbGe a b := by
  unfold lbLess at h
  unfold lbGe
  by_cases hs : a.score = b.score
  · rw [if_pos hs] at h
    exact Or.inr ⟨hs, le_of_lt (by simpa using h)⟩
  · rw [if_neg hs] at h
    exact Or.inl (by simpa using h)

theorem lbGe_trans {a b c : LeaderboardEntry} (h1 : lbGe a b) (h2 : lbGe b c) :
    lbGe a c := by
  unfold lbGe at *
  rcases h1 with h1 | ⟨h1, h1'⟩ <;> rcases h2 with h2 | ⟨h2, h2'⟩
  · exact Or.inl (by omega)
  · exact Or.inl (by omega)
  · exact Or.inl (by omega)
  · exact Or.inr ⟨by omega, le_trans h2' h1'⟩

/-- Insertion step realising `std::sort`'s contract. -/
def lbInsert (x : LeaderboardEntry) : List LeaderboardEntry → List LeaderboardEntry
  | [] => [x]
  | y :: ys => if lbLess y x then y :: lbInsert x ys else x :: y :: ys

/-- A stand-in for the `std::sort` call on the leaderboard vector.
`std::sort` is unstable and its output on comparator-tied runs is
implementation-defined, so no theorem below uses anything about this
function except the two contract facts every conforming implementation
shares: `sortLeaderboard_perm` (the output is a permutation of the input)
and `sortLeaderboard_pairwise` (the output is sorted by the comparator). -/
def sortLeaderboard : List LeaderboardEntry → List LeaderboardEntry
  | [] => []
  | x :: xs => lbInsert x (sortLeaderboard xs)

theorem mem_lbInsert {z x : LeaderboardEntry} :
    ∀ {l : List LeaderboardEntry}, z ∈ lbInsert x l → z = x ∨ z ∈ l := by
  intro l
  induction l with
  | nil => intro h; simpa [lbInsert] using h
  | cons y ys ih =>
    intro h
    unfold lbInsert at h
    split at h
    · rcases List.mem_cons.mp h with rfl | h
      · exact Or.inr (List.mem_cons_self _ _)
      · rcases ih h with h | h
        · exact Or.inl h
        · exact Or.inr (List.mem_cons_of_mem _ h)
    · rcases List.mem_cons.mp h with rfl | h
      · exact Or.inl rfl
      · exact Or.inr h

theorem pairwise_lbInsert {x : LeaderboardEntry} :
    ∀ {l : List LeaderboardEntry}, l.Pairwise lbGe → (lbInsert x l).Pairwise lbGe := by
  intro l
  induction l with
  | nil => intro _; simp [lbInsert, List.pairwise_cons]
  | cons y ys ih =>
    intro h
    rcases List.pairwise_cons.mp h with ⟨hy, hys⟩
    unfold lbInsert
    rcases hc : lbLess y x with _ | _
    · simp only [Bool.false_eq_true, if_false]
      refine List.pairwise_cons.mpr ⟨?_, h⟩
      intro z hz
      rcases List.mem_cons.mp hz with rfl | hz
      · exact lbLess_eq_false_iff.mp hc
      · exact lbGe_trans (lbLess_eq_false_iff.mp hc) (hy z hz)
    · simp only [if_true]
      refine List.pairwise_cons.mpr ⟨?_, ih hys⟩
      intro z hz
      rcases mem_lbInsert hz with rfl | hz
      · exact lbLess_eq_true_imp hc
      · exact hy z hz

theorem sortLeaderboard_pairwise (l : List LeaderboardEntry) :
    (sortLeaderboard l).Pairwise lbGe := by
  induction l with
  | nil => simp [sortLeaderboard]
  | cons x xs ih => exact pairwise_lbInsert ih

theorem lbInsert_perm (x : LeaderboardEntry) :
    ∀ l : List LeaderboardEntry, (lbInsert x l).Perm (x :: l) := by
  intro l
  induction l with
  | nil => simp [lbInsert]
  | cons y ys ih =>
    unfold lbInsert
    split
    · exact ((ih.cons y).trans (List.Perm.swap x y ys))
    · exact List.Perm.refl _

theorem sortLeaderboard_perm (l : List LeaderboardEntry) :
    (sortLeaderboard l).Perm l := by
  induction l with
  | nil => exact List.Perm.refl _
  | cons x xs ih => exact (lbInsert_perm x (sortLeaderboard xs)).trans (ih.cons x)

/-- The strict version of `lbGe`: `a` *must* precede `b` in any correctly
sorted order (strictly greater score, or equal score and strictly greater
accuracy). -/
def lbGt (a b : LeaderboardEntry) : Prop :=
  b.score < a.score ∨ (a.score = b.score ∧ b.accuracy < a.accuracy)

theorem lbGt_lbGe_asymm {a b : LeaderboardEntry} (h1 : lbGt a b) (h2 : lbGe b a) :
    False := by
  unfold lbGt at h1
  unfold lbGe at h2
  rcases h1 with h1 | ⟨h1, h1'⟩ <;> rcases h2 with h2 | ⟨h2, h2'⟩
  · omega
  · omega
  · omega
  · exact absurd h1' (not_lt.mpr h2')

/-- A `Perm`-related pair of lists with the left one sorted (`lbGe`) and the
right one *strictly* sorted (`lbGt`) must be equal: under strict keys the
sorted permutation is unique.  This pins down the output of any conforming
`std::sort` using only its contract — a permutation of the input that is
sorted by the comparator — with no appeal to stability or any other
behaviour a particular implementation might happen to have. -/
theorem eq_of_perm_of_strict :
    ∀ {l₂ l₁ : List LeaderboardEntry}, l₁.Perm l₂ → l₁.Pairwise lbGe →
      l₂.Pairwise lbGt → l₁ = l₂ := by
  intro l₂
  induction l₂ with
  | nil =>
    intro l₁ hperm _ _
    exact hperm.eq_nil
  | cons b bs ih =>
    intro l₁ hperm h1 h2
    rcases hl1 : l₁ with _ | ⟨a, as⟩
    · rw [hl1] at hperm
      exact absurd hperm.symm.eq_nil (by simp)
    subst hl1
    rcases List.pairwise_cons.mp h1 with ⟨ha, has⟩
    rcases List.pairwise_cons.mp h2 with ⟨hb, hbs⟩
    have hab : a = b := by
      by_contra hne
      have hamem : a ∈ b :: bs := hperm.subset (List.mem_cons_self _ _)
      have habs : a ∈ bs := by
        rcases List.mem_cons.mp hamem with rfl | hmem
        · exact absurd rfl hne
        · exact hmem
      have hbmem : b ∈ a :: as := hperm.symm.subset (List.mem_cons_self _ _)
      have hbas : b ∈ as := by
        rcases List.mem_cons.mp hbmem with heq | hmem
        · exact absurd heq.symm hne
        · exact hmem
      exact lbGt_lbGe_asymm (hb a habs) (ha b hbas)
    subst hab
    rw [ih hperm.cons_inv has hbs]

/-- The re-ranking loop: `leaderboard[i].rank = i + 1`. -/
def assignRanks : ℤ → List LeaderboardEntry → List LeaderboardEntry
  | _, [] => []
  | i, e :: es => { e with rank := i } :: assignRanks (i + 1) es

/-- The integer sequence `i, i+1, ..., i+n-1`. -/
def rankSeq (i : ℤ) : ℕ → List ℤ
  | 0 => []
  | n + 1 => i :: rankSeq (i + 1) n

theorem rankSeq_eq_range' :
    ∀ (n a : ℕ), rankSeq (a : ℤ) n = (List.range' a n).map (fun k : ℕ => (k : ℤ)) := by
  intro n
  induction n with
  | zero => intro a; rfl
  | succ m ih =>
    intro a
    show (a : ℤ) :: rankSeq ((a : ℤ) + 1) m = _
    rw [List.range'_succ, List.map_cons]
    have : ((a : ℤ) + 1) = ((a + 1 : ℕ) : ℤ) := by push_cast; ring
    rw [this, ih (a + 1)]

theorem assignRanks_map_rank :
    ∀ (l : List LeaderboardEntry) (i : ℤ),
      (assignRanks i l).map (·.rank) = rankSeq i l.length := by
  intro l
  induction l with
  | nil => intro i; rfl
  | cons e es ih =>
    intro i
    show i :: (assignRanks (i + 1) es).map (·.rank) = i :: rankSeq (i + 1) es.length
    rw [ih (i + 1)]

theorem mem_assignRanks {z : LeaderboardEntry} :
    ∀ {l : List LeaderboardEntry} {i : ℤ}, z ∈ assignRanks i l →
      ∃ y ∈ l, z.score = y.score ∧ z.accuracy = y.accuracy := by
  intro l
  induction l with
  | nil => intro i h; simp [assignRanks] at h
  | cons e es ih =>
    intro i h
    rcases List.mem_cons.mp h with rfl | h
    · exact ⟨e, List.mem_cons_self _ _, rfl, rfl⟩
    · obtain ⟨y, hy, h1, h2⟩ := ih h
      exact ⟨y, List.mem_cons_of_mem _ hy, h1, h2⟩

theorem lbGe_of_fields {a a' b b' : LeaderboardEntry}
    (hs : a.score = a'.score) (ha : a.accuracy = a'.accuracy)
    (hs' : b.score = b'.score) (ha' : b.accuracy = b'.accuracy)
    (h : lbGe a' b') : lbGe a b := by
  unfold lbGe at *
  rw [hs, ha, hs', ha']
  exact h

theorem pairwise_assignRanks :
    ∀ {l : List LeaderboardEntry} {i : ℤ}, l.Pairwise lbGe →
      (assignRanks i l).Pairwise lbGe := by
  intro l
  induction l with
  | nil => intro i _; simp [assignRanks]
  | cons e es ih =>
    intro i h
    rcases List.pairwise_cons.mp h with ⟨he, hes⟩
    refine List.pairwise_cons.mpr ⟨?_, ih hes⟩
    intro z hz
    obtain ⟨y, hy, h1, h2⟩ := mem_assignRanks hz
    exact lbGe_of_fields rfl rfl h1 h2 (he y hy)

/-! ### Hints -/

/-- What `showHint` prints: either one of the two refusal messages or an
actual reveal (which letter information was disclosed). -/
inductive HintOutcome
  | noWordSelected
  | noMoreHints
  | revealedFirst (c : Char)
  | revealedFirstLast (first last : Char)
  | revealedAt (pos : ℕ) (c : Char)
deriving DecidableEq

/-- Both refusal messages ("No word selected." / "No more hints available.")
signal that no hint is forthcoming. -/
def HintOutcome.noHintAvailable : HintOutcome → Bool
  | .noWordSelected => true
  | .noMoreHints => true
  | _ => false

/-- `WordScrambleGame::nextUnrevealedPosition`: the lowest index of the
current word not yet revealed, or the word length when all are revealed. -/
def nextUnrevealedPosition (s : GameState) : ℕ :=
  match (List.range s.currentWord.length).find? (fun i => i ∉ s.revealedPositions) with
  | some i => i
  | none => s.currentWord.length

/-- `WordScrambleGame::showHint`. -/
def showHint (s : GameState) (level : ℤ) : HintOutcome × GameState :=
  if s.currentWord = "" then (.noWordSelected, s)
  else if s.currentWord.length ≤ s.revealedPositions.card then (.noMoreHints, s)
  else if level = 1 then
    (.revealedFirst (s.currentWord.data.headD ' '),
      { s with revealedPositions := insert 0 s.revealedPositions })
  else if level = 2 then
    (.revealedFirstLast (s.currentWord.data.headD ' ') (s.currentWord.data.getLastD ' '),
      { s with revealedPositions :=
          insert (s.currentWord.length - 1) (insert 0 s.revealedPositions) })
  else if s.currentWord.length ≤ nextUnrevealedPosition s then (.noMoreHints, s)
  else
    (.revealedAt (nextUnrevealedPosition s)
        (s.currentWord.data.getD (nextUnrevealedPosition s) ' '),
      { s with revealedPositions := insert (nextUnrevealedPosition s) s.revealedPositions })

/-- `WordScrambleGame::selectRandomWord`: `oracle` is the
`uniform_int_distribution` draw, `now` the clock reading that starts the
response timer.  Selecting a word clears the revealed-position set. -/
def selectRandomWord (s : GameState) (oracle : ℕ) (now : ℤ) : String × GameState :=
  if s.words.isEmpty then ("", s)
  else
    let w := s.words.getD (oracle % s.words.length) ""
    (w, { s with currentWord := w, revealedPositions := ∅, lastGuessStart := now })

/-- Selecting a word (from a non-empty bank) establishes the reachability
invariant assumed in C6: the revealed set only holds indices of the current
word. -/
theorem selectRandomWord_inrange (s : GameState) (oracle : ℕ) (now : ℤ)
    (h : s.words.isEmpty = false) :
    (selectRandomWord s oracle now).2.revealedPositions ⊆
      Finset.range (selectRandomWord s oracle now).2.currentWord.length := by
  unfold selectRandomWord
  rw [if_neg (by simp [h])]
  intro i hi
  exact absurd hi (Finset.not_mem_empty i)

/-- A witness that `selectRandomWord_inrange` applies: the initial bank is
non-empty. -/
theorem selectRandomWord_inrange_witness :
    (selectRandomWord initialState 0 0).2.revealedPositions ⊆
      Finset.range (selectRandomWord initialState 0 0).2.currentWord.length :=
  selectRandomWord_inrange initialState 0 0 (by decide)

/-- `showHint` preserves the reachability invariant: it inserts only indices
of the current word. -/
theorem showHint_preserves_inrange (s : GameState) (level : ℤ)
    (h : s.revealedPositions ⊆ Finset.range s.currentWord.length) :
    (showHint s level).2.revealedPositions ⊆
      Finset.range (showHint s level).2.currentWord.length := by
  unfold showHint
  by_cases h1 : s.currentWord = ""
  · rw [if_pos h1]; exact h
  rw [if_neg h1]
  have hlen : 1 ≤ s.currentWord.length := by
    rcases Nat.eq_zero_or_pos s.currentWord.length with h0 | h0
    · exact absurd (String.ext (List.length_eq_zero.mp h0)) h1
    · exact h0
  by_cases h2 : s.currentWord.length ≤ s.revealedPositions.card
  · rw [if_pos h2]; exact h
  rw [if_neg h2]
  by_cases h3 : level = 1
  · rw [if_pos h3]
    show insert 0 s.revealedPositions ⊆ Finset.range s.currentWord.length
    exact Finset.insert_subset (Finset.mem_range.mpr (by omega)) h
  rw [if_neg h3]
  by_cases h4 : level = 2
  · rw [if_pos h4]
    show insert (s.currentWord.length - 1) (insert 0 s.revealedPositions) ⊆
      Finset.range s.currentWord.length
    exact Finset.insert_subset (Finset.mem_range.mpr (by omega))
      (Finset.insert_subset (Finset.mem_range.mpr (by omega)) h)
  rw [if_neg h4]
  by_cases h5 : s.currentWord.length ≤ nextUnrevealedPosition s
  · rw [if_pos h5]; exact h
  · rw [if_neg h5]
    show insert (nextUnrevealedPosition s) s.revealedPositions ⊆
      Finset.range s.currentWord.length
    exact Finset.insert_subset (Finset.mem_range.mpr (by omega)) h

/-- A witness that `showHint_preserves_inrange` applies at a concrete state. -/
theorem showHint_preserves_inrange_witness :
    (showHint puzzleIdleState 1).2.revealedPositions ⊆
      Finset.range (showHint puzzleIdleState 1).2.currentWord.length :=
  showHint_preserves_inrange puzzleIdleState 1 (by decide)

/-- Hints only ever add revealed positions, never remove them. -/
theorem showHint_mono (s : GameState) (level : ℤ) :
    s.revealedPositions ⊆ (showHint s level).2.revealedPositions := by
  unfold showHint
  split
  · exact Finset.Subset.refl _
  · split
    · exact Finset.Subset.refl _
    · split
      · exact Finset.subset_insert _ _
      · split
        · exact (Finset.subset_insert _ _).trans (Finset.subset_insert _ _)
        · split
          · exact Finset.Subset.refl _
          · exact Finset.subset_insert _ _

/-- **C6.** Hint reveals grow monotonically: level 1 followed by level 2 never
leaves fewer revealed positions than level 1 alone; and a hint invoked with no
word selected, or with every position of the target already revealed (the
revealed set never holds out-of-range indices), leaves the revealed set — in
fact the whole state — unchanged and signals that no hint is available. -/
theorem showHint_spec (s : GameState) :
    ((showHint s 1).2.revealedPositions ⊆
      (showHint (showHint s 1).2 2).2.revealedPositions) ∧
    (∀ level : ℤ, s.currentWord = "" →
      showHint s level = (.noWordSelected, s) ∧
      (HintOutcome.noWordSelected).noHintAvailable = true) ∧
    (∀ level : ℤ, s.currentWord ≠ "" →
      s.revealedPositions ⊆ Finset.range s.currentWord.length →
      (∀ i < s.currentWord.length, i ∈ s.revealedPositions) →
      showHint s level = (.noMoreHints, s) ∧
      (HintOutcome.noMoreHints).noHintAvailable = true) := by
  refine ⟨showHint_mono _ 2, fun level h => ?_, fun level h hsub hall => ?_⟩
  · rw [showHint, if_pos h]
    exact ⟨rfl, rfl⟩
  · have hrange : s.revealedPositions = Finset.range s.currentWord.length := by
      apply Finset.Subset.antisymm hsub
      intro i hi
      exact hall i (Finset.mem_range.mp hi)
    have hcard : s.currentWord.length ≤ s.revealedPositions.card := by
      rw [hrange, Finset.card_range]
    rw [showHint, if_neg h, if_pos hcard]
    exact ⟨rfl, rfl⟩

/-- Witness for C6: a concrete state with target `"puzzle"`.  After level 1
then level 2 the revealed set has grown; with all six positions revealed any
hint level (here 3) refuses and leaves the state unchanged; with no word
selected the same holds. -/
theorem showHint_spec_witness :
    ((showHint puzzleIdleState 1).2.revealedPositions ⊆
      (showHint (showHint puzzleIdleState 1).2 2).2.revealedPositions) ∧
    showHint initialState 3 = (.noWordSelected, initialState) ∧
    showHint { puzzleIdleState with revealedPositions := {0, 1, 2, 3, 4, 5} } 3 =
      (.noMoreHints, { puzzleIdleState with revealedPositions := {0, 1, 2, 3, 4, 5} }) := by
  refine ⟨(showHint_spec puzzleIdleState).1, ?_, ?_⟩
  · exact ((showHint_spec initialState).2.1 3 (by decide)).1
  · exact ((showHint_spec
      { puzzleIdleState with revealedPositions := {0, 1, 2, 3, 4, 5} }).2.2 3
      (by decide) (by decide) (by decide)).1

/-! ### Scrambling -/

/-- Swap the characters at positions `i` and `j` (both in range, else no-op). -/
def swapPositions (l : List Char) (i j : ℕ) : List Char :=
  match l.get? i, l.get? j with
  | some a, some b => (l.set i b).set j a
  | _, _ => l

/-- The Fisher–Yates pass of `std::shuffle`: for `i = n-1, ..., 1`, swap
position `i` with position `oracle i % (i+1)`.  `oracle` stands for the
draws taken from the `mt19937` engine. -/
def fyPass (oracle : ℕ → ℕ) : ℕ → List Char → List Char
  | 0, l => l
  | i + 1, l => fyPass oracle i (swapPositions l (i + 1) (oracle (i + 1) % (i + 2)))

/-- `WordScrambleGame::scrambleWord`: shuffle when the length exceeds 1 and
bump the scramble counter. -/
def scrambleWord (s : GameState) (oracle : ℕ → ℕ) (word : String) : String × GameState :=
  let scrambled : String :=
    if 1 < word.data.length then ⟨fyPass oracle (word.data.length - 1) word.data⟩ else word
  (scrambled,
    { s with metrics := { s.metrics with scrambleCount := s.metrics.scrambleCount + 1 } })

theorem count_set_of_get (l : List Char) :
    ∀ (n : ℕ) (c x : Char), n < l.length →
      (l.set n c).count x + (if l.getD n ' ' = x then 1 else 0) =
        l.count x + (if c = x then 1 else 0) := by
  induction l with
  | nil => intro n c x h; simp at h
  | cons a as ih =>
    intro n c x h
    cases n with
    | zero =>
      simp only [List.set_cons_zero, List.getD_cons_zero, List.count_cons, beq_iff_eq]
      omega
    | succ m =>
      simp only [List.set_cons_succ, List.getD_cons_succ, List.count_cons, beq_iff_eq]
      have hm : m < as.length := by simpa using h
      have hrec := ih m c x hm
      simp only [List.getD_eq_getElem?_getD] at hrec ⊢
      omega

theorem swapPositions_eq {l : List Char} {i j : ℕ} {a b : Char}
    (hi : l.get? i = some a) (hj : l.get? j = some b) :
    swapPositions l i j = (l.set i b).set j a := by
  unfold swapPositions
  rw [hi, hj]

theorem swapPositions_perm (l : List Char) (i j : ℕ) :
    (swapPositions l i j).Perm l := by
  rcases hi : l.get? i with _ | a
  · have he : swapPositions l i j = l := by
      unfold swapPositions
      rw [hi]
    rw [he]
  · rcases hj : l.get? j with _ | b
    · have he : swapPositions l i j = l := by
        unfold swapPositions
        rw [hi, hj]
      rw [he]
    · rw [swapPositions_eq hi hj]
      have hil : i < l.length := List.get?_eq_some.mp hi |>.1
      have hjl : j < l.length := List.get?_eq_some.mp hj |>.1
      have hi' : l[i]? = some a := by rw [← List.get?_eq_getElem?]; exact hi
      have hj' : l[j]? = some b := by rw [← List.get?_eq_getElem?]; exact hj
      have hia : l.getD i ' ' = a := by
        simp [List.getD_eq_getElem?_getD, hi']
      have hjb : l.getD j ' ' = b := by
        simp [List.getD_eq_getElem?_getD, hj']
      apply List.perm_iff_count.mpr
      intro x
      have hjlen : j < (l.set i b).length := by simpa using hjl
      have h1 := count_set_of_get (l.set i b) j a x hjlen
      have h2 := count_set_of_get l i b x hil
      have hgd : (l.set i b).getD j ' ' = if j = i then b else l.getD j ' ' := by
        by_cases hji : j = i
        · subst hji
          rw [if_pos rfl]
          simp only [List.getD_eq_getElem?_getD, List.getElem?_set_self hjl]
          rfl
        · rw [if_neg hji]
          simp only [List.getD_eq_getElem?_getD,
            List.getElem?_set_ne (fun h => hji h.symm)]
      by_cases hji : j = i
      · rw [hgd, if_pos hji] at h1
        have hab : a = b := by
          rw [← hia, ← hjb, hji]
        subst hji
        subst hab
        rw [hia] at h2
        rw [List.set_set]
        omega
      · rw [hgd, if_neg hji, hjb] at h1
        rw [hia] at h2
        omega

theorem fyPass_perm (oracle : ℕ → ℕ) :
    ∀ (n : ℕ) (l : List Char), (fyPass oracle n l).Perm l := by
  intro n
  induction n with
  | zero => intro l; exact List.Perm.refl _
  | succ m ih =>
    intro l
    exact (ih _).trans (swapPositions_perm l (m + 1) (oracle (m + 1) % (m + 2)))

/-- **C4.** `scrambleWord` always returns a character permutation of its input
(same multiset, hence same length); inputs of length 0 or 1 come back
unchanged; and every call bumps the scramble counter by exactly 1 (touching
nothing else in the state). -/
theorem scrambleWord_spec (s : GameState) (oracle : ℕ → ℕ) (w : String) :
    (scrambleWord s oracle w).1.data.Perm w.data ∧
    (w.data.length ≤ 1 → (scrambleWord s oracle w).1 = w) ∧
    (scrambleWord s oracle w).2 =
      { s with metrics := { s.metrics with scrambleCount := s.metrics.scrambleCount + 1 } } := by
  refine ⟨?_, ?_, rfl⟩
  · show (if 1 < w.data.length then (⟨fyPass oracle (w.data.length - 1) w.data⟩ : String)
      else w).data.Perm w.data
    split
    · exact fyPass_perm oracle _ _
    · exact List.Perm.refl _
  · intro hlen
    show (if 1 < w.data.length then (⟨fyPass oracle (w.data.length - 1) w.data⟩ : String)
      else w) = w
    rw [if_neg (by omega)]

/-- Witness for C4: scrambling `"puzzle"` with an oracle that always draws 0
yields a permutation of its letters, `"a"` comes back unchanged, and the
scramble counter of `initialState` goes from 0 to 1. -/
theorem scrambleWord_spec_witness :
    (scrambleWord initialState (fun _ => 0) "puzzle").1.data.Perm "puzzle".data ∧
    (scrambleWord initialState (fun _ => 0) "a").1 = "a" ∧
    (scrambleWord initialState (fun _ => 0) "puzzle").2.metrics.scrambleCount = 1 := by
  refine ⟨(scrambleWord_spec initialState (fun _ => 0) "puzzle").1,
    (scrambleWord_spec initialState (fun _ => 0) "a").2.1 (by decide), ?_⟩
  rw [(scrambleWord_spec initialState (fun _ => 0) "puzzle").2.2]
  rfl

/-! ### Decimal rendering and parsing

The program writes integers through `operator<<` and doubles through
`fixed << setprecision(k)`, and reads them back with `stoi` / `stod`.
Doubles are modelled as `ℚ`; `%.k f` output is modelled as rounding to `k`
decimal places (`round` — the tie direction is immaterial to every claim, and
the doubles the program writes are nowhere near decimal ties).

`stoi` is `strtol` in base 10 plus an `int`-range check: C-locale whitespace,
optional sign, at least one digit (else `std::invalid_argument`), trailing
characters ignored, and a converted value outside `[INT_MIN, INT_MAX]` raises
`std::out_of_range`; both exceptions are `none` here (the caller catches
them and drops the row).

`stod` is `strtod`: C-locale whitespace, optional sign, then a decimal
mantissa with optional fraction and optional well-formed `e`-exponent (a
malformed exponent is not consumed), or a `0x` hexadecimal mantissa with
optional `p`-exponent, or the case-insensitive literals `inf`/`infinity` and
`nan`/`nan(…)`; no digits at all is `std::invalid_argument`.  A finite result
whose magnitude overflows double (rounds to ±∞) raises `std::out_of_range`,
and so does a nonzero result below the normal range (glibc's `strtod` reports
`ERANGE` on underflow-to-subnormal, and libstdc++'s `stod` throws on any
`ERANGE`); both are `none` here.  The IEEE infinities and NaN produced by the
`inf`/`nan` literals have no rational image, so they are mapped to the
explicit stand-ins `infRat` / `nanRat` below; no theorem in this file depends
on those stand-in values — only on the parse succeeding — and a leaderboard
holding them corresponds to the program state with non-finite doubles (whose
subsequent `std::sort` on a NaN key would not be a strict weak order and is
undefined behaviour in C++, hence out of scope for every claim). -/

/-- `isspace` in the C locale. -/
def isCSpace (c : Char) : Bool :=
  c == ' ' || c == '\t' || c == '\n' || c == '\x0b' || c == '\x0c' || c == '\r'

def isDigitChar (c : Char) : Bool :=
  decide ('0' ≤ c) && decide (c ≤ '9')

def digitVal (c : Char) : ℕ := c.toNat - '0'.toNat

def digitChar : ℕ → Char
  | 0 => '0'
  | 1 => '1'
  | 2 => '2'
  | 3 => '3'
  | 4 => '4'
  | 5 => '5'
  | 6 => '6'
  | 7 => '7'
  | 8 => '8'
  | _ => '9'

/-- Decimal digits, fuel-structured so that proofs can evaluate it; the fuel
`n + 1` always suffices since the argument shrinks by a factor of ten. -/
def natToDigitsAux : ℕ → ℕ → List Char
  | 0, _ => []
  | fuel + 1, n =>
    if n < 10 then [digitChar n]
    else natToDigitsAux fuel (n / 10) ++ [digitChar (n % 10)]

/-- Decimal digits of `n`, most significant first. -/
def natToDigits (n : ℕ) : List Char := natToDigitsAux (n + 1) n

theorem natToDigitsAux_congr :
    ∀ (f₁ : ℕ) {f₂ n : ℕ}, n < f₁ → n < f₂ → natToDigitsAux f₁ n = natToDigitsAux f₂ n := by
  intro f₁
  induction f₁ with
  | zero => intro f₂ n h1 _; omega
  | succ g ih =>
    intro f₂ n h1 h2
    cases f₂ with
    | zero => omega
    | succ h =>
      show natToDigitsAux (g + 1) n = natToDigitsAux (h + 1) n
      unfold natToDigitsAux
      by_cases hn : n < 10
      · rw [if_pos hn, if_pos hn]
      · rw [if_neg hn, if_neg hn]
        have hd : n / 10 < n := Nat.div_lt_self (by omega) (by omega)
        exact congrArg (fun l => l ++ [digitChar (n % 10)]) (ih (by omega) (by omega))

/-- The defining recurrence of `natToDigits`. -/
theorem natToDigits_eq (n : ℕ) :
    natToDigits n = if n < 10 then [digitChar n]
      else natToDigits (n / 10) ++ [digitChar (n % 10)] := by
  unfold natToDigits
  show natToDigitsAux (n + 1) n = _
  conv_lhs => rw [natToDigitsAux]
  by_cases hn : n < 10
  · rw [if_pos hn, if_pos hn]
  · rw [if_neg hn, if_neg hn]
    have hd : n / 10 < n := Nat.div_lt_self (by omega) (by omega)
    show _ = natToDigitsAux (n / 10 + 1) (n / 10) ++ [digitChar (n % 10)]
    exact congrArg (fun l => l ++ [digitChar (n % 10)])
      (natToDigitsAux_congr n (by omega) (by omega))

/-- Value of a digit string (the accumulator loop of `stoi` / `stod`). -/
def natOfDigits (l : List Char) : ℕ :=
  l.foldl (fun acc c => acc * 10 + digitVal c) 0

/-- `operator<<` on an `int`. -/
def intToStr (n : ℤ) : List Char :=
  if n < 0 then '-' :: natToDigits n.natAbs else natToDigits n.natAbs

/-- Two decimal digits with a leading zero (the fraction part of `%.2f`). -/
def pad2 (m : ℕ) : List Char :=
  if m < 10 then '0' :: [digitChar m] else natToDigits m

/-- Round to the nearest integer (`⌊q + 1/2⌋`, computed on the numerator and
denominator so that it evaluates; `qround_eq_round` ties it to Mathlib's
`round`). -/
def qround (q : ℚ) : ℤ := (2 * q.num + (q.den : ℤ)) / (2 * (q.den : ℤ))

/-- `fixed << setprecision(2)` on a double. -/
def format2 (q : ℚ) : List Char :=
  (if qround (q * 100) < 0 then ['-'] else []) ++
    natToDigits ((qround (q * 100)).natAbs / 100) ++ '.' :: pad2 ((qround (q * 100)).natAbs % 100)

/-- `fixed << setprecision(1)` on a double. -/
def format1 (q : ℚ) : List Char :=
  (if qround (q * 10) < 0 then ['-'] else []) ++
    natToDigits ((qround (q * 10)).natAbs / 10) ++ '.' :: [digitChar ((qround (q * 10)).natAbs % 10)]

/-- The value a double comes back as after being written with two decimals. -/
def roundTo2 (q : ℚ) : ℚ := ((qround (q * 100) : ℤ) : ℚ) / 100

theorem qround_eq_round (q : ℚ) : qround q = round q := by
  have hden : (0 : ℚ) < (q.den : ℚ) := by
    exact_mod_cast q.pos
  have h0 : ((q.den : ℚ)) ≠ 0 := ne_of_gt hden
  have h1 : (q.num : ℚ) = q * (q.den : ℚ) := (div_eq_iff h0).mp (Rat.num_div_den q)
  have hx : q + 1 / 2 = ((2 * q.num + (q.den : ℤ) : ℤ) : ℚ) / ((2 * q.den : ℕ) : ℚ) := by
    have h2 : ((2 * q.num + (q.den : ℤ) : ℤ) : ℚ) = 2 * (q.num : ℚ) + (q.den : ℚ) := by
      push_cast
      ring
    have h3 : ((2 * q.den : ℕ) : ℚ) = 2 * (q.den : ℚ) := by
      push_cast
      ring
    rw [h2, h3, eq_div_iff (by positivity), h1]
    ring
  have h4 : ((2 * q.den : ℕ) : ℤ) = 2 * (q.den : ℤ) := by
    push_cast
    ring
  rw [round_eq, hx, Rat.floor_intCast_div_natCast, h4]
  rfl

theorem qround_mono {a b : ℚ} (h : a ≤ b) : qround a ≤ qround b := by
  rw [qround_eq_round, qround_eq_round, round_eq, round_eq]
  exact Int.floor_le_floor (by linarith)

/-- The sign handling of `strtol` / `strtod`. -/
def parseSign (l : List Char) : Bool × List Char :=
  match l with
  | c :: r => if c = '-' then (true, r) else if c = '+' then (false, r) else (false, l)
  | [] => (false, l)

/-- `INT_MIN` on the 32-bit-`int` ABI the program targets. -/
def intMinZ : ℤ := -2147483648

/-- `INT_MAX` on the same ABI. -/
def intMaxZ : ℤ := 2147483647

/-- A value representable in the C++ `int` fields of the program. -/
def intFits (n : ℤ) : Prop := intMinZ ≤ n ∧ n ≤ intMaxZ

instance (n : ℤ) : Decidable (intFits n) := by
  unfold intFits; infer_instance

/-- `std::stoi` (base 10): skip C whitespace, optional sign, at least one
digit (else `std::invalid_argument`), ignore the rest; a converted value out
of `int` range is `std::out_of_range`.  Both throws are `none` here. -/
def parseIntList (l : List Char) : Option ℤ :=
  let l1 := l.dropWhile isCSpace
  let sr := parseSign l1
  let ds := sr.2.takeWhile isDigitChar
  if ds.isEmpty then none
  else
    let v : ℤ := if sr.1 then -(natOfDigits ds : ℤ) else (natOfDigits ds : ℤ)
    if v < intMinZ ∨ intMaxZ < v then none else some v

/-- `DBL_MAX = 2^1024 − 2^971`, the largest finite double. -/
def maxDouble : ℚ := 2 ^ 1024 - 2 ^ 971

/-- The smallest magnitude that rounds to ±∞ under round-to-nearest-even:
the midpoint between `DBL_MAX` and `2^1024` (the tie rounds up, to ∞). -/
def overflowBoundary : ℚ := 2 ^ 1024 - 2 ^ 970

/-- The smallest magnitude that still rounds to a *normal* double: the
midpoint between the largest subnormal and `DBL_MIN = 2^-1022` (the tie
rounds up, to the normal).  Nonzero results below it underflow. -/
def underflowBoundary : ℚ := 1 / 2 ^ 1022 - 1 / 2 ^ 1075

/-- A finite-double magnitude: what every double field of the program
satisfies (`|x| ≤ DBL_MAX`). -/
def dblFits (q : ℚ) : Prop := |q| ≤ maxDouble

/-- Stand-in for IEEE `+∞` (see the section comment): above every finite
double, so its sort behaviour against finite values matches `+∞`'s. -/
def infRat : ℚ := 2 ^ 1024

/-- Stand-in for IEEE NaN (see the section comment): the program's behaviour
on NaN keys is undefined (`std::sort` precondition violation), so no claim
constrains this value. -/
def nanRat : ℚ := 2 ^ 1024 + 1

/-- The sign application and `ERANGE` policy of `stod` on a finite parsed
value: overflow-to-infinity and underflow-below-normal both throw
`std::out_of_range` (`none`). -/
def stodFinish (neg : Bool) (v : ℚ) : Option ℚ :=
  if overflowBoundary ≤ |v| then none
  else if v ≠ 0 ∧ |v| < underflowBoundary then none
  else some (if neg then -v else v)

/-- The optional decimal exponent of `strtod` (`e`/`E`, optional sign, at
least one digit): factor `10^±e`; a malformed exponent is not consumed and
contributes factor 1. -/
def expFactor (r : List Char) : ℚ :=
  match r with
  | [] => 1
  | e :: rest =>
    if e = 'e' ∨ e = 'E' then
      let s2 := parseSign rest
      let eds := s2.2.takeWhile isDigitChar
      if eds.isEmpty then 1
      else if s2.1 then ((10 : ℚ) ^ natOfDigits eds)⁻¹ else (10 : ℚ) ^ natOfDigits eds
    else 1

/-- Decimal (non-hex) `strtod` conversion after the sign: digits, optional
fraction, optional exponent; no digits at all is `std::invalid_argument`. -/
def decParse (neg : Bool) (t : List Char) : Option ℚ :=
  let ds := t.takeWhile isDigitChar
  let r1 := t.drop ds.length
  let fs := match r1 with
    | '.' :: r => r.takeWhile isDigitChar
    | _ => []
  if ds.isEmpty ∧ fs.isEmpty then none
  else
    let r2 := match r1 with
      | '.' :: r => r.drop fs.length
      | _ => r1
    stodFinish neg
      (((natOfDigits ds : ℚ) + (natOfDigits fs : ℚ) / ((10 : ℚ) ^ fs.length)) * expFactor r2)

def isHexDigit (c : Char) : Bool :=
  isDigitChar c || (decide ('a' ≤ c) && decide (c ≤ 'f')) ||
    (decide ('A' ≤ c) && decide (c ≤ 'F'))

def hexVal (c : Char) : ℕ :=
  if isDigitChar c then digitVal c
  else if decide ('a' ≤ c) && decide (c ≤ 'f') then c.toNat - 'a'.toNat + 10
  else c.toNat - 'A'.toNat + 10

def natOfHexDigits (l : List Char) : ℕ :=
  l.foldl (fun acc c => acc * 16 + hexVal c) 0

/-- The optional binary exponent of a hexadecimal float (`p`/`P`): factor
`2^±e`; malformed exponents are not consumed. -/
def pexpFactor (r : List Char) : ℚ :=
  match r with
  | [] => 1
  | p :: rest =>
    if p = 'p' ∨ p = 'P' then
      let s2 := parseSign rest
      let eds := s2.2.takeWhile isDigitChar
      if eds.isEmpty then 1
      else if s2.1 then ((2 : ℚ) ^ natOfDigits eds)⁻¹ else (2 : ℚ) ^ natOfDigits eds
    else 1

/-- Hexadecimal `strtod` conversion after `0x`: hex digits, optional hex
fraction, optional `p`-exponent. -/
def hexParse (neg : Bool) (t : List Char) : Option ℚ :=
  let hs := t.takeWhile isHexDigit
  let r1 := t.drop hs.length
  let fs := match r1 with
    | '.' :: r => r.takeWhile isHexDigit
    | _ => []
  let r2 := match r1 with
    | '.' :: r => r.drop fs.length
    | _ => r1
  stodFinish neg
    (((natOfHexDigits hs : ℚ) + (natOfHexDigits fs : ℚ) / ((16 : ℚ) ^ fs.length)) *
      pexpFactor r2)

/-- Whether the text after the sign is a hexadecimal subject sequence: `0x`
(or `0X`) followed by at least one hex digit before or right after the point.
When it is not (e.g. `"0x."`), `strtod` backtracks and converts the plain
`"0"`. -/
def isHexStart (t : List Char) : Bool :=
  match t with
  | c0 :: c1 :: rest =>
    c0 == '0' && (c1 == 'x' || c1 == 'X') &&
      (match rest with
       | [] => false
       | c :: r =>
         isHexDigit c ||
           (c == '.' && (match r with
             | c' :: _ => isHexDigit c'
             | [] => false)))
  | _ => false

/-- Case-insensitive detection of the `inf`/`infinity` and `nan`/`nan(…)`
literals (trailing characters beyond the detected prefix are ignored either
way, so recognising the 3-character prefix fixes the value). -/
def hasPrefixCI (pre t : List Char) : Bool :=
  pre.isPrefixOf (t.map toLowerChar)

/-- `std::stod` — see the section comment for the exact scope. -/
def parseRatList (l : List Char) : Option ℚ :=
  let l1 := l.dropWhile isCSpace
  let sr := parseSign l1
  if hasPrefixCI "inf".data sr.2 then some (if sr.1 then -infRat else infRat)
  else if hasPrefixCI "nan".data sr.2 then some nanRat
  else if isHexStart sr.2 then hexParse sr.1 (sr.2.drop 2)
  else decParse sr.1 sr.2

/-- The token loop `while (getline(ss, token, delim))`: an empty input yields
no tokens, and a trailing delimiter does not yield a trailing empty token. -/
def cppSplit (d : Char) : List Char → List (List Char)
  | [] => []
  | c :: cs =>
    if c = d then [] :: cppSplit d cs
    else
      match cppSplit d cs with
      | [] => [[c]]
      | t :: ts => (c :: t) :: ts

/-! ### Leaderboard persistence -/

/-- One CSV data row of `saveLeaderboardToFile`. -/
def entryRow (e : LeaderboardEntry) : List Char :=
  intToStr e.rank ++ ',' :: (e.name.data ++ ',' :: (intToStr e.score ++
    ',' :: (intToStr e.games ++ ',' :: (intToStr e.attempts ++
    ',' :: (format2 e.averageTime ++ ',' :: (format2 e.accuracy ++
    ',' :: (format2 e.averageGuessTime ++ ',' :: intToStr e.difficulty.code)))))))

/-- The CSV header row. -/
def headerRow : List Char :=
  "RANK,NAME,SCORE,GAMES,ATTEMPTS,AVG_TIME,ACCURACY,AVG_GUESS_TIME,DIFFICULTY".data

/-- The full file text `saveLeaderboardToFile` writes. -/
def leaderboardFileText (lb : List LeaderboardEntry) : String :=
  ⟨((headerRow :: lb.map entryRow).map (· ++ ['\n'])).flatten⟩

/-- `line.find("RANK") != string::npos`. -/
def containsRANK (line : List Char) : Bool :=
  (List.range (line.length + 1)).any (fun i => "RANK".data.isPrefixOf (line.drop i))

/-- Field extraction and numeric parsing for one CSV row — the `try` block of
`loadLeaderboardFromFile`, in its evaluation order; the first parse failure
(`none`) aborts the row, as the first `std::stoi`/`stod` throw does. -/
def parseEntryFields (parts : List (List Char)) : Option LeaderboardEntry :=
  (parseIntList (parts.getD 0 [])).bind fun rank =>
  (parseIntList (parts.getD 2 [])).bind fun score =>
  (parseIntList (parts.getD 3 [])).bind fun games =>
  (parseIntList (parts.getD 4 [])).bind fun attempts =>
  (parseRatList (parts.getD 5 [])).bind fun avgTime =>
  (parseRatList (parts.getD 6 [])).bind fun acc =>
  (parseRatList (parts.getD 7 [])).bind fun avgGuess =>
  (parseIntList (parts.getD 8 [])).bind fun diff =>
  some { rank := rank
         name := ⟨parts.getD 1 []⟩
         score := score
         games := games
         attempts := attempts
         averageTime := avgTime
         accuracy := acc
         averageGuessTime := avgGuess
         difficulty :=
           if diff = 1 then .easy
           else if diff = 2 then .medium
           else if diff = 3 then .hard
           else .easy }

/-- Per-line handling of `loadLeaderboardFromFile`: skip blank lines, drop
rows without exactly 9 comma-separated fields, drop rows that fail numeric
parsing. -/
def parseLeaderboardLine (line : List Char) : Option LeaderboardEntry :=
  if (trimList line).isEmpty then none
  else
    if (cppSplit ',' line).length ≠ 9 then none
    else parseEntryFields (cppSplit ',' line)

/-- The whole-file read loop: only the first line is eligible to be a header
(`headerSkipped` is set on the first iteration), and it is skipped exactly
when it contains the token `RANK`. -/
def linesToEntries (lines : List (List Char)) : List LeaderboardEntry :=
  match lines with
  | [] => []
  | first :: rest =>
    (if containsRANK first then [] else (parseLeaderboardLine first).toList) ++
      rest.filterMap parseLeaderboardLine

/-- `WordScrambleGame::loadLeaderboardFromFile`.  `content` is the file
(`none` = the open failed), `ioTime` the elapsed wall-clock milliseconds. -/
def loadLeaderboardFromFile (s : GameState) (content : Option String) (ioTime : ℚ) :
    Bool × GameState :=
  match content with
  | none => (false, s)
  | some text =>
    (true, updateMemoryUsage
      { s with
        leaderboard := assignRanks 1 (sortLeaderboard (linesToEntries (cppSplit '\n' text.data)))
        metrics := { s.metrics with
          fileOperations := s.metrics.fileOperations + 1
          totalFileIOTime := s.metrics.totalFileIOTime + ioTime } })

/-- `WordScrambleGame::saveLeaderboardToFile`: the written text is the second
component; `canOpen = false` models an open failure. -/
def saveLeaderboardToFile (s : GameState) (canOpen : Bool) (ioTime : ℚ) :
    Bool × Option String × GameState :=
  if canOpen then
    (true, some (leaderboardFileText s.leaderboard),
      { s with metrics := { s.metrics with
        fileOperations := s.metrics.fileOperations + 1
        totalFileIOTime := s.metrics.totalFileIOTime + ioTime } })
  else (false, none, s)

/-! ### Word-list loading, metrics file, leaderboard update -/

/-- `WordScrambleGame::loadWordsFromFile`. -/
def loadWordsFromFile (s : GameState) (content : Option String) (ioTime : ℚ) :
    Bool × GameState :=
  match content with
  | none => (false, s)
  | some text =>
    let s' := (cppSplit '\n' text.data).foldl
      (fun st line =>
        if (trimList line).isEmpty then st else (addWord st ⟨trimList line⟩).2) s
    (true, updateMemoryUsage
      { s' with metrics := { s'.metrics with
        fileOperations := s'.metrics.fileOperations + 1
        totalFileIOTime := s'.metrics.totalFileIOTime + ioTime } })

/-- Session accuracy: `correct / total × 100`, 0 when no guesses. -/
def accuracyOf (s : GameState) : ℚ :=
  if s.totalGuesses = 0 then 0 else ((s.correctGuesses : ℚ) / (s.totalGuesses : ℚ)) * 100

/-- Average guess time: `totalGuessTime / guessCount`, 0 when no guesses. -/
def avgGuessTimeOf (s : GameState) : ℚ :=
  if s.metrics.guessCount = 0 then 0
  else s.metrics.totalGuessTime / (s.metrics.guessCount : ℚ)

/-- The text `saveMetricsToFile` writes. -/
def metricsFileText (s : GameState) : String :=
  ⟨"Player: ".data ++ (if s.playerName = "" then "Player".data else s.playerName.data) ++
    '\n' :: "Score: ".data ++ intToStr s.score ++
    '\n' :: "Accuracy: ".data ++ format1 (accuracyOf s) ++ "%".data ++
    '\n' :: "Guesses: ".data ++ natToDigits s.totalGuesses ++
    '\n' :: "Correct: ".data ++ natToDigits s.correctGuesses ++
    '\n' :: "Total Guess Time: ".data ++ format2 s.metrics.totalGuessTime ++ " ms".data ++
    '\n' :: "File I/O Operations: ".data ++ natToDigits s.metrics.fileOperations ++
    '\n' :: "Total File I/O Time: ".data ++ format2 s.metrics.totalFileIOTime ++ " ms".data ++
    '\n' :: "Scrambles: ".data ++ natToDigits s.metrics.scrambleCount ++
    '\n' :: "Total Memory: ".data ++ natToDigits s.metrics.totalMemoryAllocated ++ " bytes".data ++
    '\n' :: "Peak Memory: ".data ++ natToDigits s.metrics.peakMemoryUsage ++ " bytes".data ++
    ['\n']⟩

/-- `WordScrambleGame::saveMetricsToFile`. -/
def saveMetricsToFile (s : GameState) (canOpen : Bool) (ioTime : ℚ) :
    Bool × Option String × GameState :=
  if canOpen then
    (true, some (metricsFileText s),
      { s with metrics := { s.metrics with
        fileOperations := s.metrics.fileOperations + 1
        totalFileIOTime := s.metrics.totalFileIOTime + ioTime } })
  else (false, none, s)

/-- `WordScrambleGame::updateLeaderboard`. -/
def updateLeaderboard (s : GameState) (averageRoundTime : ℚ) : GameState :=
  let entry : LeaderboardEntry :=
    { rank := 0
      name := if s.playerName = "" then "Player" else s.playerName
      score := s.score
      games := s.gamesPlayed + 1
      attempts := if 0 < s.attempts then s.attempts else (s.totalGuesses : ℤ)
      averageTime := averageRoundTime
      accuracy := accuracyOf s
      averageGuessTime := avgGuessTimeOf s
      difficulty := s.difficulty }
  updateMemoryUsage
    { s with
      gamesPlayed := s.gamesPlayed + 1
      leaderboard := assignRanks 1 (sortLeaderboard (s.leaderboard ++ [entry])) }

/-! ### Correctness of the decimal rendering/parsing pair -/

theorem digit_spec : ∀ d : ℕ, d < 10 →
    digitVal (digitChar d) = d ∧ isDigitChar (digitChar d) = true := by
  decide

theorem natToDigits_all_digit :
    ∀ (n : ℕ), ∀ c ∈ natToDigits n, isDigitChar c = true := by
  intro n
  induction n using Nat.strong_induction_on with
  | _ n ih =>
    intro c hc
    rw [natToDigits_eq] at hc
    by_cases hn : n < 10
    · rw [if_pos hn] at hc
      rcases List.mem_singleton.mp hc with rfl
      exact (digit_spec n hn).2
    · rw [if_neg hn] at hc
      rcases List.mem_append.mp hc with hc | hc
      · exact ih (n / 10) (Nat.div_lt_self (by omega) (by omega)) c hc
      · rcases List.mem_singleton.mp hc with rfl
        exact (digit_spec (n % 10) (by omega)).2

theorem natToDigits_ne_nil (n : ℕ) : natToDigits n ≠ [] := by
  rw [natToDigits_eq]
  by_cases hn : n < 10
  · rw [if_pos hn]; simp
  · rw [if_neg hn]; simp

theorem digit_ne_of {c x : Char} (h : isDigitChar c = true)
    (hx : isDigitChar x = false) : c ≠ x := by
  rintro rfl
  rw [h] at hx
  cases hx

theorem digit_not_cspace {c : Char} (h : isDigitChar c = true) : isCSpace c = false := by
  by_contra hs
  have hs' : isCSpace c = true := by
    rcases hb : isCSpace c with _ | _
    · exact absurd hb hs
    · rfl
  simp only [isCSpace, Bool.or_eq_true, beq_iff_eq] at hs'
  rcases hs' with ((((rfl | rfl) | rfl) | rfl) | rfl) | rfl <;> exact absurd h (by decide)

theorem natOfDigits_acc (l : List Char) :
    ∀ acc : ℕ, l.foldl (fun a c => a * 10 + digitVal c) acc =
      acc * 10 ^ l.length + natOfDigits l := by
  induction l with
  | nil => intro acc; simp [natOfDigits]
  | cons c cs ih =>
    intro acc
    show cs.foldl _ (acc * 10 + digitVal c) = acc * 10 ^ (cs.length + 1) + natOfDigits (c :: cs)
    rw [ih (acc * 10 + digitVal c)]
    show _ = _ + cs.foldl _ (0 * 10 + digitVal c)
    rw [ih (0 * 10 + digitVal c)]
    ring

theorem natOfDigits_append (a b : List Char) :
    natOfDigits (a ++ b) = natOfDigits a * 10 ^ b.length + natOfDigits b := by
  unfold natOfDigits
  rw [List.foldl_append, natOfDigits_acc]
  rfl

theorem natOfDigits_natToDigits : ∀ n : ℕ, natOfDigits (natToDigits n) = n := by
  intro n
  induction n using Nat.strong_induction_on with
  | _ n ih =>
    rw [natToDigits_eq]
    by_cases hn : n < 10
    · rw [if_pos hn]
      show 0 * 10 + digitVal (digitChar n) = n
      rw [(digit_spec n hn).1]
      omega
    · rw [if_neg hn, natOfDigits_append,
        ih (n / 10) (Nat.div_lt_self (by omega) (by omega))]
      show n / 10 * 10 ^ 1 + (0 * 10 + digitVal (digitChar (n % 10))) = n
      rw [(digit_spec (n % 10) (by omega)).1]
      omega

theorem takeWhile_all {p : Char → Bool} :
    ∀ {l : List Char}, (∀ c ∈ l, p c = true) → l.takeWhile p = l := by
  intro l
  induction l with
  | nil => intro _; rfl
  | cons c cs ih =>
    intro h
    rw [List.takeWhile_cons, if_pos (h c (List.mem_cons_self _ _)),
      ih (fun x hx => h x (List.mem_cons_of_mem _ hx))]

theorem takeWhile_append_stop {p : Char → Bool} {d : Char} (hd : p d = false) :
    ∀ {x rest : List Char}, (∀ c ∈ x, p c = true) →
      (x ++ d :: rest).takeWhile p = x := by
  intro x rest
  induction x with
  | nil =>
    intro _
    show (d :: rest).takeWhile p = []
    rw [List.takeWhile_cons, if_neg (by simp [hd])]
  | cons c cs ih =>
    intro h
    show ((c :: (cs ++ d :: rest)).takeWhile p) = c :: cs
    rw [List.takeWhile_cons, if_pos (h c (List.mem_cons_self _ _)),
      ih (fun x hx => h x (List.mem_cons_of_mem _ hx))]

theorem drop_append_cons (x : List Char) (d : Char) (rest : List Char) :
    (x ++ d :: rest).drop (x.length + 1) = rest := by
  have : x ++ d :: rest = (x ++ [d]) ++ rest := by simp
  rw [this]
  have hlen : x.length + 1 = (x ++ [d]).length := by simp
  rw [hlen, List.drop_left]

theorem dropWhile_not_head {p : Char → Bool} {c : Char} (h : p c = false)
    (cs : List Char) : (c :: cs).dropWhile p = c :: cs := by
  rw [List.dropWhile_cons, if_neg (by simp [h])]

theorem parseSign_not_sign {c : Char} (h1 : c ≠ '-') (h2 : c ≠ '+') (cs : List Char) :
    parseSign (c :: cs) = (false, c :: cs) := by
  show (if c = '-' then ((true : Bool), cs)
    else if c = '+' then ((false : Bool), cs) else ((false : Bool), c :: cs)) = _
  rw [if_neg h1, if_neg h2]

theorem parseSign_neg (cs : List Char) : parseSign ('-' :: cs) = (true, cs) := by
  show (if '-' = '-' then ((true : Bool), cs)
    else if '-' = '+' then ((false : Bool), cs) else ((false : Bool), '-' :: cs)) = _
  rw [if_pos rfl]

theorem parseIntList_intToStr (n : ℤ) (hmin : intMinZ ≤ n) (hmax : n ≤ intMaxZ) :
    parseIntList (intToStr n) = some n := by
  simp only [intMinZ] at hmin
  simp only [intMaxZ] at hmax
  rcases hds : natToDigits n.natAbs with _ | ⟨c, cs⟩
  · exact absurd hds (natToDigits_ne_nil _)
  have hcdig : isDigitChar c = true :=
    natToDigits_all_digit n.natAbs c (by rw [hds]; exact List.mem_cons_self _ _)
  have halld : ∀ x ∈ c :: cs, isDigitChar x = true := by
    rw [← hds]; exact natToDigits_all_digit n.natAbs
  have e3 : (c :: cs).takeWhile isDigitChar = c :: cs := takeWhile_all halld
  have e4 : natOfDigits (c :: cs) = n.natAbs := by
    rw [← hds]; exact natOfDigits_natToDigits _
  by_cases hn : n < 0
  · have h1 : intToStr n = '-' :: natToDigits n.natAbs := by
      unfold intToStr; rw [if_pos hn]
    have e1 : ('-' :: c :: cs).dropWhile isCSpace = '-' :: c :: cs :=
      dropWhile_not_head (by decide) _
    rw [h1, hds]
    simp only [parseIntList, e1, parseSign_neg, e3, e4, List.isEmpty_cons,
      Bool.false_eq_true, if_false, if_true]
    rw [show -((n.natAbs : ℕ) : ℤ) = n by omega]
    rw [if_neg (by simp only [intMinZ, intMaxZ]; omega)]
  · have h1 : intToStr n = natToDigits n.natAbs := by
      unfold intToStr; rw [if_neg hn]
    have e1 : (c :: cs).dropWhile isCSpace = c :: cs :=
      dropWhile_not_head (digit_not_cspace hcdig) _
    have e2 : parseSign (c :: cs) = (false, c :: cs) :=
      parseSign_not_sign (digit_ne_of hcdig (by decide)) (digit_ne_of hcdig (by decide)) cs
    rw [h1, hds]
    simp only [parseIntList, e1, e2, e3, e4, List.isEmpty_cons,
      Bool.false_eq_true, if_false, if_true]
    rw [show ((n.natAbs : ℕ) : ℤ) = n by omega]
    rw [if_neg (by simp only [intMinZ, intMaxZ]; omega)]

theorem digitChar_digit (d : ℕ) : isDigitChar (digitChar d) = true := by
  match d with
  | 0 | 1 | 2 | 3 | 4 | 5 | 6 | 7 | 8 => rfl
  | n + 9 => rfl

theorem pad2_all_digit (m : ℕ) : ∀ c ∈ pad2 m, isDigitChar c = true := by
  unfold pad2
  split
  · intro c hc
    rcases List.mem_cons.mp hc with rfl | hc
    · rfl
    · rcases List.mem_singleton.mp hc with rfl
      exact digitChar_digit m
  · exact natToDigits_all_digit m

theorem pad2_length {m : ℕ} (h : m < 100) : (pad2 m).length = 2 := by
  unfold pad2
  split
  · rfl
  · next hm =>
    rw [natToDigits_eq, if_neg hm, natToDigits_eq, if_pos (by omega)]
    rfl

theorem pad2_value {m : ℕ} (h : m < 100) : natOfDigits (pad2 m) = m := by
  unfold pad2
  split
  · next hm =>
    show (0 * 10 + digitVal '0') * 10 + digitVal (digitChar m) = m
    rw [(digit_spec m (by omega)).1]
    have h0 : digitVal '0' = 0 := by decide
    rw [h0]
    omega
  · exact natOfDigits_natToDigits m

theorem digit_le_bounds {c : Char} (h : isDigitChar c = true) : '0' ≤ c ∧ c ≤ '9' := by
  simpa [isDigitChar, Bool.and_eq_true, decide_eq_true_eq] using h

/-- `tolower` leaves decimal digits unchanged. -/
theorem toLowerChar_digit {c : Char} (h : isDigitChar c = true) : toLowerChar c = c := by
  obtain ⟨-, h9⟩ := digit_le_bounds h
  unfold toLowerChar
  rw [if_neg]
  rintro ⟨hA, -⟩
  exact absurd (le_trans hA h9) (by decide)

/-- A digit-headed subject sequence is not an `inf` literal. -/
theorem inf_prefix_false {c : Char} (h : isDigitChar c = true) (t : List Char) :
    hasPrefixCI "inf".data (c :: t) = false := by
  show List.isPrefixOf ('i' :: ['n', 'f']) (List.map toLowerChar (c :: t)) = false
  rw [List.map_cons, toLowerChar_digit h]
  show ('i' == c && List.isPrefixOf ['n', 'f'] (List.map toLowerChar t)) = false
  rw [beq_eq_false_iff_ne.mpr (Ne.symm (digit_ne_of h (by decide))), Bool.false_and]

/-- A digit-headed subject sequence is not a `nan` literal. -/
theorem nan_prefix_false {c : Char} (h : isDigitChar c = true) (t : List Char) :
    hasPrefixCI "nan".data (c :: t) = false := by
  show List.isPrefixOf ('n' :: ['a', 'n']) (List.map toLowerChar (c :: t)) = false
  rw [List.map_cons, toLowerChar_digit h]
  show ('n' == c && List.isPrefixOf ['a', 'n'] (List.map toLowerChar t)) = false
  rw [beq_eq_false_iff_ne.mpr (Ne.symm (digit_ne_of h (by decide))), Bool.false_and]

/-- A decimal digit followed by a digit or a point never starts a
hexadecimal subject sequence. -/
theorem isHexStart_false_digits (c : Char) {c₂ : Char}
    (h2 : isDigitChar c₂ = true ∨ c₂ = '.') (rest : List Char) :
    isHexStart (c :: c₂ :: rest) = false := by
  have hx : (c₂ == 'x') = false := by
    rcases h2 with h2 | rfl
    · exact beq_eq_false_iff_ne.mpr (digit_ne_of h2 (by decide))
    · decide
  have hX : (c₂ == 'X') = false := by
    rcases h2 with h2 | rfl
    · exact beq_eq_false_iff_ne.mpr (digit_ne_of h2 (by decide))
    · decide
  unfold isHexStart
  simp [hx, hX]

/-- `stodFinish` on an in-range nonnegative parse, no sign. -/
theorem stodFinish_false {v : ℚ} (hov : |v| < overflowBoundary)
    (hun : v = 0 ∨ underflowBoundary ≤ |v|) : stodFinish false v = some v := by
  unfold stodFinish
  rw [if_neg (not_le.mpr hov), if_neg]
  · rfl
  · rintro ⟨h1, h2⟩
    rcases hun with rfl | hun
    · exact h1 rfl
    · exact absurd h2 (not_lt.mpr hun)

/-- `stodFinish` on an in-range parse with a leading minus. -/
theorem stodFinish_true {v : ℚ} (hov : |v| < overflowBoundary)
    (hun : v = 0 ∨ underflowBoundary ≤ |v|) : stodFinish true v = some (-v) := by
  unfold stodFinish
  rw [if_neg (not_le.mpr hov), if_neg]
  · rfl
  · rintro ⟨h1, h2⟩
    rcases hun with rfl | hun
    · exact h1 rfl
    · exact absurd h2 (not_lt.mpr hun)

/-- `decParse` on a digit string, point, digit string: no exponent follows,
so the value handed to `stodFinish` is the plain fixed-point reading. -/
theorem decParse_digits_dot (neg : Bool) (x P : List Char)
    (hx : ∀ c ∈ x, isDigitChar c = true) (hxne : x ≠ [])
    (hP : ∀ c ∈ P, isDigitChar c = true) :
    decParse neg (x ++ '.' :: P) =
      stodFinish neg ((natOfDigits x : ℚ) + (natOfDigits P : ℚ) / (10 : ℚ) ^ P.length) := by
  rcases hxe : x with _ | ⟨c, cs⟩
  · exact absurd hxe hxne
  subst hxe
  rw [List.cons_append]
  have e3 : (c :: (cs ++ '.' :: P)).takeWhile isDigitChar = c :: cs := by
    rw [← List.cons_append]
    exact takeWhile_append_stop (by decide) hx
  have e4 : (c :: (cs ++ '.' :: P)).drop (c :: cs).length = '.' :: P := by
    rw [← List.cons_append]
    exact List.drop_left (c :: cs) ('.' :: P)
  have e5 : P.takeWhile isDigitChar = P := takeWhile_all hP
  have e6 : P.drop P.length = [] := List.drop_length P
  simp only [decParse, e3, e4, e5, e6, List.isEmpty_cons, Bool.false_eq_true, false_and,
    if_false, expFactor, mul_one]

/-- Parsing a digit string, point, digit string — the exact shape `format2`
emits (unsigned case).  The side conditions say the value neither overflows
nor (when nonzero) underflows the double range. -/
theorem parseRatList_digits_dot (x P : List Char) (hx : ∀ c ∈ x, isDigitChar c = true)
    (hxne : x ≠ []) (hP : ∀ c ∈ P, isDigitChar c = true)
    (hov : (natOfDigits x : ℚ) + (natOfDigits P : ℚ) / (10 : ℚ) ^ P.length <
      overflowBoundary)
    (hun : (natOfDigits x : ℚ) + (natOfDigits P : ℚ) / (10 : ℚ) ^ P.length = 0 ∨
      underflowBoundary ≤ (natOfDigits x : ℚ) + (natOfDigits P : ℚ) / (10 : ℚ) ^ P.length) :
    parseRatList (x ++ '.' :: P) =
      some ((natOfDigits x : ℚ) + (natOfDigits P : ℚ) / (10 : ℚ) ^ P.length) := by
  have hnn : 0 ≤ (natOfDigits x : ℚ) + (natOfDigits P : ℚ) / (10 : ℚ) ^ P.length := by
    positivity
  rcases hxe : x with _ | ⟨c, cs⟩
  · exact absurd hxe hxne
  subst hxe
  have hcdig : isDigitChar c = true := hx c (List.mem_cons_self _ _)
  rw [List.cons_append]
  have e1 : (c :: (cs ++ '.' :: P)).dropWhile isCSpace = c :: (cs ++ '.' :: P) :=
    dropWhile_not_head (digit_not_cspace hcdig) _
  have e2 : parseSign (c :: (cs ++ '.' :: P)) = (false, c :: (cs ++ '.' :: P)) :=
    parseSign_not_sign (digit_ne_of hcdig (by decide)) (digit_ne_of hcdig (by decide)) _
  have einf : hasPrefixCI "inf".data (c :: (cs ++ '.' :: P)) = false :=
    inf_prefix_false hcdig _
  have enan : hasPrefixCI "nan".data (c :: (cs ++ '.' :: P)) = false :=
    nan_prefix_false hcdig _
  have ehex : isHexStart (c :: (cs ++ '.' :: P)) = false := by
    rcases cs with _ | ⟨c₂, cs'⟩
    · exact isHexStart_false_digits c (Or.inr rfl) P
    · exact isHexStart_false_digits c
        (Or.inl (hx c₂ (List.mem_cons_of_mem _ (List.mem_cons_self _ _)))) _
  simp only [parseRatList, e1, e2, einf, enan, ehex, Bool.false_eq_true, if_false]
  rw [← List.cons_append, decParse_digits_dot false (c :: cs) P hx hxne hP]
  exact stodFinish_false (by rwa [abs_of_nonneg hnn])
    (by rcases hun with h | h
        · exact Or.inl h
        · exact Or.inr (by rwa [abs_of_nonneg hnn]))

/-- The signed variant. -/
theorem parseRatList_neg_digits_dot (x P : List Char) (hx : ∀ c ∈ x, isDigitChar c = true)
    (hxne : x ≠ []) (hP : ∀ c ∈ P, isDigitChar c = true)
    (hov : (natOfDigits x : ℚ) + (natOfDigits P : ℚ) / (10 : ℚ) ^ P.length <
      overflowBoundary)
    (hun : (natOfDigits x : ℚ) + (natOfDigits P : ℚ) / (10 : ℚ) ^ P.length = 0 ∨
      underflowBoundary ≤ (natOfDigits x : ℚ) + (natOfDigits P : ℚ) / (10 : ℚ) ^ P.length) :
    parseRatList ('-' :: (x ++ '.' :: P)) =
      some (-((natOfDigits x : ℚ) + (natOfDigits P : ℚ) / (10 : ℚ) ^ P.length)) := by
  have hnn : 0 ≤ (natOfDigits x : ℚ) + (natOfDigits P : ℚ) / (10 : ℚ) ^ P.length := by
    positivity
  rcases hxe : x with _ | ⟨c, cs⟩
  · exact absurd hxe hxne
  subst hxe
  have hcdig : isDigitChar c = true := hx c (List.mem_cons_self _ _)
  rw [List.cons_append]
  have e1 : ('-' :: c :: (cs ++ '.' :: P)).dropWhile isCSpace =
      '-' :: c :: (cs ++ '.' :: P) :=
    dropWhile_not_head (by decide) _
  have e2 := parseSign_neg (c :: (cs ++ '.' :: P))
  have einf : hasPrefixCI "inf".data (c :: (cs ++ '.' :: P)) = false :=
    inf_prefix_false hcdig _
  have enan : hasPrefixCI "nan".data (c :: (cs ++ '.' :: P)) = false :=
    nan_prefix_false hcdig _
  have ehex : isHexStart (c :: (cs ++ '.' :: P)) = false := by
    rcases cs with _ | ⟨c₂, cs'⟩
    · exact isHexStart_false_digits c (Or.inr rfl) P
    · exact isHexStart_false_digits c
        (Or.inl (hx c₂ (List.mem_cons_of_mem _ (List.mem_cons_self _ _)))) _
  simp only [parseRatList, e1, e2, einf, enan, ehex, Bool.false_eq_true, if_false]
  rw [← List.cons_append, decParse_digits_dot true (c :: cs) P hx hxne hP]
  exact stodFinish_true (by rwa [abs_of_nonneg hnn])
    (by rcases hun with h | h
        · exact Or.inl h
        · exact Or.inr (by rwa [abs_of_nonneg hnn]))

theorem parseRatList_format2 (q : ℚ) (hfit : dblFits q) :
    parseRatList (format2 q) = some (roundTo2 q) := by
  have hmod : (qround (q * 100)).natAbs % 100 < 100 := by omega
  have harith : ((natOfDigits (natToDigits ((qround (q * 100)).natAbs / 100)) : ℕ) : ℚ) +
      ((natOfDigits (pad2 ((qround (q * 100)).natAbs % 100)) : ℕ) : ℚ) /
        (10 : ℚ) ^ (pad2 ((qround (q * 100)).natAbs % 100)).length =
      (((qround (q * 100)).natAbs : ℕ) : ℚ) / 100 := by
    rw [natOfDigits_natToDigits, pad2_value hmod, pad2_length hmod]
    have hsplit : (((qround (q * 100)).natAbs : ℕ) : ℚ) =
        100 * (((qround (q * 100)).natAbs / 100 : ℕ) : ℚ) +
          (((qround (q * 100)).natAbs % 100 : ℕ) : ℚ) := by
      exact_mod_cast (Nat.div_add_mod (qround (q * 100)).natAbs 100).symm
    rw [hsplit]
    norm_num
    ring
  have habs : (((qround (q * 100)).natAbs : ℕ) : ℚ) = |((qround (q * 100) : ℤ) : ℚ)| := by
    rw [Int.cast_natAbs, Int.cast_abs]
  have hcle : |((qround (q * 100) : ℤ) : ℚ)| ≤ 100 * maxDouble + 1 / 2 := by
    have hround : |q * 100 - ((qround (q * 100) : ℤ) : ℚ)| ≤ 1 / 2 := by
      rw [qround_eq_round]
      exact abs_sub_round (q * 100)
    have h2 := abs_le.mp hround
    have h3 : |q| ≤ maxDouble := hfit
    have h4 := abs_le.mp h3
    exact abs_le.mpr ⟨by linarith, by linarith⟩
  have hklt : (((qround (q * 100)).natAbs : ℕ) : ℚ) / 100 < overflowBoundary := by
    rw [habs]
    have hgap : (100 : ℚ) * maxDouble + 1 / 2 < 100 * overflowBoundary := by
      simp only [maxDouble, overflowBoundary]
      norm_num
    linarith
  have hkun : (((qround (q * 100)).natAbs : ℕ) : ℚ) / 100 = 0 ∨
      underflowBoundary ≤ (((qround (q * 100)).natAbs : ℕ) : ℚ) / 100 := by
    rcases Nat.eq_zero_or_pos (qround (q * 100)).natAbs with h0 | hpos
    · left
      rw [h0]
      norm_num
    · right
      have h1 : (1 : ℚ) ≤ (((qround (q * 100)).natAbs : ℕ) : ℚ) := by exact_mod_cast hpos
      have h2 : underflowBoundary ≤ 1 / 100 := by
        simp only [underflowBoundary]
        norm_num
      linarith
  have hov : ((natOfDigits (natToDigits ((qround (q * 100)).natAbs / 100)) : ℕ) : ℚ) +
      ((natOfDigits (pad2 ((qround (q * 100)).natAbs % 100)) : ℕ) : ℚ) /
        (10 : ℚ) ^ (pad2 ((qround (q * 100)).natAbs % 100)).length < overflowBoundary := by
    rw [harith]
    exact hklt
  have hun : ((natOfDigits (natToDigits ((qround (q * 100)).natAbs / 100)) : ℕ) : ℚ) +
      ((natOfDigits (pad2 ((qround (q * 100)).natAbs % 100)) : ℕ) : ℚ) /
        (10 : ℚ) ^ (pad2 ((qround (q * 100)).natAbs % 100)).length = 0 ∨
      underflowBoundary ≤
        ((natOfDigits (natToDigits ((qround (q * 100)).natAbs / 100)) : ℕ) : ℚ) +
          ((natOfDigits (pad2 ((qround (q * 100)).natAbs % 100)) : ℕ) : ℚ) /
            (10 : ℚ) ^ (pad2 ((qround (q * 100)).natAbs % 100)).length := by
    rw [harith]
    exact hkun
  by_cases hneg : qround (q * 100) < 0
  · have hfmt : format2 q = '-' :: (natToDigits ((qround (q * 100)).natAbs / 100) ++
        '.' :: pad2 ((qround (q * 100)).natAbs % 100)) := by
      unfold format2
      rw [if_pos hneg]
      rfl
    rw [hfmt, parseRatList_neg_digits_dot _ _ (natToDigits_all_digit _)
      (natToDigits_ne_nil _) (pad2_all_digit _) hov hun, harith]
    congr 1
    unfold roundTo2
    have h1 : ((qround (q * 100)).natAbs : ℤ) = -(qround (q * 100)) := by omega
    have hk : (((qround (q * 100)).natAbs : ℕ) : ℚ) = -((qround (q * 100) : ℤ) : ℚ) :=
      calc (((qround (q * 100)).natAbs : ℕ) : ℚ)
          = (((qround (q * 100)).natAbs : ℤ) : ℚ) := (Int.cast_natCast _).symm
        _ = ((-(qround (q * 100)) : ℤ) : ℚ) := by rw [h1]
        _ = -((qround (q * 100) : ℤ) : ℚ) := Int.cast_neg _
    rw [hk]
    ring
  · have hfmt : format2 q = natToDigits ((qround (q * 100)).natAbs / 100) ++
        '.' :: pad2 ((qround (q * 100)).natAbs % 100) := by
      unfold format2
      rw [if_neg hneg]
      rfl
    rw [hfmt, parseRatList_digits_dot _ _ (natToDigits_all_digit _)
      (natToDigits_ne_nil _) (pad2_all_digit _) hov hun, harith]
    congr 1
    unfold roundTo2
    have h1 : ((qround (q * 100)).natAbs : ℤ) = qround (q * 100) := by omega
    have hk : (((qround (q * 100)).natAbs : ℕ) : ℚ) = ((qround (q * 100) : ℤ) : ℚ) :=
      calc (((qround (q * 100)).natAbs : ℕ) : ℚ)
          = (((qround (q * 100)).natAbs : ℤ) : ℚ) := (Int.cast_natCast _).symm
        _ = ((qround (q * 100) : ℤ) : ℚ) := by rw [h1]
    rw [hk]

/-! ### Splitting lemmas -/

theorem cppSplit_cons (d c : Char) (cs : List Char) :
    cppSplit d (c :: cs) =
      if c = d then [] :: cppSplit d cs
      else match cppSplit d cs with
        | [] => [[c]]
        | t :: ts => (c :: t) :: ts := rfl

theorem cppSplit_ne_nil {d : Char} : ∀ {l : List Char}, l ≠ [] → cppSplit d l ≠ [] := by
  intro l
  induction l with
  | nil => intro h; exact absurd rfl h
  | cons c cs ih =>
    intro _
    rw [cppSplit_cons]
    by_cases hc : c = d
    · rw [if_pos hc]; simp
    · rw [if_neg hc]
      rcases cppSplit d cs with _ | ⟨t, ts⟩ <;> simp

theorem cppSplit_append_delim {d : Char} :
    ∀ {x : List Char}, d ∉ x → ∀ rest : List Char,
      cppSplit d (x ++ d :: rest) = x :: cppSplit d rest := by
  intro x
  induction x with
  | nil =>
    intro _ rest
    show cppSplit d (d :: rest) = [] :: cppSplit d rest
    rw [cppSplit_cons, if_pos rfl]
  | cons c cs ih =>
    intro hd rest
    have hc : c ≠ d := fun h => hd (h ▸ List.mem_cons_self _ _)
    have hcs : d ∉ cs := fun h => hd (List.mem_cons_of_mem _ h)
    show cppSplit d (c :: (cs ++ d :: rest)) = (c :: cs) :: cppSplit d rest
    rw [cppSplit_cons, if_neg hc, ih hcs rest]

theorem cppSplit_no_delim {d : Char} :
    ∀ {x : List Char}, d ∉ x → x ≠ [] → cppSplit d x = [x] := by
  intro x
  induction x with
  | nil => intro _ h; exact absurd rfl h
  | cons c cs ih =>
    intro hd _
    have hc : c ≠ d := fun h => hd (h ▸ List.mem_cons_self _ _)
    have hcs : d ∉ cs := fun h => hd (List.mem_cons_of_mem _ h)
    rw [cppSplit_cons, if_neg hc]
    rcases hcse : cs with _ | ⟨c', cs'⟩
    · rfl
    · rw [← hcse, ih hcs (by rw [hcse]; simp)]

theorem cppSplit_flatten {d : Char} :
    ∀ {lines : List (List Char)}, (∀ l ∈ lines, d ∉ l) →
      cppSplit d ((lines.map (· ++ [d])).flatten) = lines := by
  intro lines
  induction lines with
  | nil => intro _; rfl
  | cons x rest ih =>
    intro h
    have hx : d ∉ x := h x (List.mem_cons_self _ _)
    have hrest : ∀ l ∈ rest, d ∉ l := fun l hl => h l (List.mem_cons_of_mem _ hl)
    show cppSplit d ((x ++ [d]) ++ (rest.map (· ++ [d])).flatten) = x :: rest
    rw [show (x ++ [d]) ++ (rest.map (· ++ [d])).flatten =
      x ++ d :: (rest.map (· ++ [d])).flatten by simp]
    rw [cppSplit_append_delim hx, ih hrest]

theorem count_cons_ne {d c : Char} (h : c ≠ d) (cs : List Char) :
    (c :: cs).count d = cs.count d := by
  rw [List.count_cons]
  simp only [beq_iff_eq]
  rw [if_neg h, Nat.add_zero]

theorem cppSplit_length_ge {d : Char} :
    ∀ l : List Char, l.count d ≤ (cppSplit d l).length := by
  intro l
  induction l with
  | nil => simp [cppSplit]
  | cons c cs ih =>
    rw [cppSplit_cons]
    by_cases hc : c = d
    · subst hc
      rw [if_pos rfl]
      rw [List.count_cons_self]
      simp only [List.length_cons]
      omega
    · rw [if_neg hc, count_cons_ne hc]
      rcases hsp : cppSplit d cs with _ | ⟨t, ts⟩
      · have hcs : cs = [] := by
          by_contra hne
          exact cppSplit_ne_nil hne hsp
        subst hcs
        simp
      · rw [hsp] at ih
        simpa using ih

theorem getLast?_append_cons (x : List Char) (d : Char) :
    ∀ rest : List Char, rest ≠ [] → (x ++ d :: rest).getLast? = rest.getLast? := by
  intro rest hrest
  rcases List.exists_cons_of_ne_nil hrest with ⟨r, rs, rfl⟩
  induction x with
  | nil =>
    show (d :: r :: rs).getLast? = (r :: rs).getLast?
    rw [List.getLast?_cons_cons]
  | cons c cs ih =>
    show (c :: (cs ++ d :: r :: rs)).getLast? = _
    have hne : cs ++ d :: r :: rs ≠ [] := by simp
    rcases List.exists_cons_of_ne_nil hne with ⟨a, as, ha⟩
    rw [ha, List.getLast?_cons_cons, ← ha, ih]

theorem cppSplit_length_eq {d : Char} :
    ∀ l : List Char, l ≠ [] → l.getLast? ≠ some d →
      (cppSplit d l).length = l.count d + 1 := by
  intro l
  induction l with
  | nil => intro h _; exact absurd rfl h
  | cons c cs ih =>
    intro _ hlast
    rw [cppSplit_cons]
    rcases hcse : cs with _ | ⟨c', cs'⟩
    · subst hcse
      have hc : c ≠ d := by
        intro h
        exact hlast (by simp [h])
      rw [if_neg hc]
      show 1 = [c].count d + 1
      rw [count_cons_ne hc]
      rfl
    · rw [← hcse]
      have hcsne : cs ≠ [] := by rw [hcse]; simp
      have hlast' : cs.getLast? ≠ some d := by
        rw [hcse] at hlast ⊢
        rw [List.getLast?_cons_cons] at hlast
        exact hlast
      by_cases hc : c = d
      · subst hc
        rw [if_pos rfl]
        show (cppSplit c cs).length + 1 = (c :: cs).count c + 1
        rw [ih hcsne hlast', List.count_cons_self]
      · rw [if_neg hc]
        rcases hsp : cppSplit d cs with _ | ⟨t, ts⟩
        · exact absurd hsp (cppSplit_ne_nil hcsne)
        · have hrec := ih hcsne hlast'
          rw [hsp] at hrec
          show (t :: ts).length = (c :: cs).count d + 1
          rw [count_cons_ne hc, ← hrec]

/-! ### Character classification of rendered fields -/

theorem intToStr_chars (n : ℤ) : ∀ c ∈ intToStr n, isDigitChar c = true ∨ c = '-' := by
  unfold intToStr
  split
  · intro c hc
    rcases List.mem_cons.mp hc with rfl | hc
    · exact Or.inr rfl
    · exact Or.inl (natToDigits_all_digit _ c hc)
  · intro c hc
    exact Or.inl (natToDigits_all_digit _ c hc)

theorem format2_chars (q : ℚ) :
    ∀ c ∈ format2 q, isDigitChar c = true ∨ c = '-' ∨ c = '.' := by
  unfold format2
  intro c hc
  rcases List.mem_append.mp hc with hc | hc
  · rcases List.mem_append.mp hc with hc | hc
    · split at hc
      · rcases List.mem_singleton.mp hc with rfl
        exact Or.inr (Or.inl rfl)
      · cases hc
    · exact Or.inl (natToDigits_all_digit _ c hc)
  · rcases List.mem_cons.mp hc with rfl | hc
    · exact Or.inr (Or.inr rfl)
    · exact Or.inl (pad2_all_digit _ c hc)

theorem comma_not_mem_intToStr (n : ℤ) : ',' ∉ intToStr n := by
  intro h
  rcases intToStr_chars n ',' h with h | h
  · exact absurd h (by decide)
  · cases h

theorem newline_not_mem_intToStr (n : ℤ) : '\n' ∉ intToStr n := by
  intro h
  rcases intToStr_chars n '\n' h with h | h
  · exact absurd h (by decide)
  · cases h

theorem comma_not_mem_format2 (q : ℚ) : ',' ∉ format2 q := by
  intro h
  rcases format2_chars q ',' h with h | h | h
  · exact absurd h (by decide)
  · cases h
  · cases h

theorem newline_not_mem_format2 (q : ℚ) : '\n' ∉ format2 q := by
  intro h
  rcases format2_chars q '\n' h with h | h | h
  · exact absurd h (by decide)
  · cases h
  · cases h

theorem intToStr_ne_nil (n : ℤ) : intToStr n ≠ [] := by
  unfold intToStr
  split
  · simp
  · exact natToDigits_ne_nil _

/-! ### One CSV row: structure, parse, and failure -/

theorem comma_mem_entryRow (e : LeaderboardEntry) : ',' ∈ entryRow e := by
  unfold entryRow
  simp

theorem entryRow_no_newline {e : LeaderboardEntry} (h : '\n' ∉ e.name.data) :
    '\n' ∉ entryRow e := by
  intro hmem
  unfold entryRow at hmem
  rcases List.mem_append.mp hmem with h1 | h1
  · exact newline_not_mem_intToStr _ h1
  rcases List.mem_cons.mp h1 with h2 | h2
  · cases h2
  rcases List.mem_append.mp h2 with h1 | h1
  · exact h h1
  rcases List.mem_cons.mp h1 with h2 | h2
  · cases h2
  rcases List.mem_append.mp h2 with h1 | h1
  · exact newline_not_mem_intToStr _ h1
  rcases List.mem_cons.mp h1 with h2 | h2
  · cases h2
  rcases List.mem_append.mp h2 with h1 | h1
  · exact newline_not_mem_intToStr _ h1
  rcases List.mem_cons.mp h1 with h2 | h2
  · cases h2
  rcases List.mem_append.mp h2 with h1 | h1
  · exact newline_not_mem_intToStr _ h1
  rcases List.mem_cons.mp h1 with h2 | h2
  · cases h2
  rcases List.mem_append.mp h2 with h1 | h1
  · exact newline_not_mem_format2 _ h1
  rcases List.mem_cons.mp h1 with h2 | h2
  · cases h2
  rcases List.mem_append.mp h2 with h1 | h1
  · exact newline_not_mem_format2 _ h1
  rcases List.mem_cons.mp h1 with h2 | h2
  · cases h2
  rcases List.mem_append.mp h2 with h1 | h1
  · exact newline_not_mem_format2 _ h1
  rcases List.mem_cons.mp h1 with h2 | h2
  · cases h2
  exact newline_not_mem_intToStr _ h2

theorem mem_dropWhile_of {p : Char → Bool} {l : List Char} {c : Char}
    (hc : c ∈ l) (hpc : p c = false) : c ∈ l.dropWhile p := by
  have hsplit := List.takeWhile_append_dropWhile p l
  rw [← hsplit] at hc
  rcases List.mem_append.mp hc with h | h
  · have := List.mem_takeWhile_imp h
    rw [hpc] at this
    cases this
  · exact h

theorem trimList_ne_nil {l : List Char} {c : Char} (hc : c ∈ l)
    (hpc : isTrimSpace c = false) : trimList l ≠ [] := by
  unfold trimList
  have h1 : c ∈ l.dropWhile isTrimSpace := mem_dropWhile_of hc hpc
  have h2 : c ∈ (l.dropWhile isTrimSpace).reverse := List.mem_reverse.mpr h1
  have h3 : c ∈ ((l.dropWhile isTrimSpace).reverse.dropWhile isTrimSpace) :=
    mem_dropWhile_of h2 hpc
  intro he
  rw [List.reverse_eq_nil_iff] at he
  rw [he] at h3
  cases h3

/-- The entry an own-written CSV row parses back to: everything identical
except that the three time/accuracy doubles come back rounded to two
decimals. -/
def reparse (e : LeaderboardEntry) : LeaderboardEntry :=
  { e with
    averageTime := roundTo2 e.averageTime
    accuracy := roundTo2 e.accuracy
    averageGuessTime := roundTo2 e.averageGuessTime }

theorem entryRow_split {e : LeaderboardEntry} (h : ',' ∉ e.name.data) :
    cppSplit ',' (entryRow e) =
      [intToStr e.rank, e.name.data, intToStr e.score, intToStr e.games,
       intToStr e.attempts, format2 e.averageTime, format2 e.accuracy,
       format2 e.averageGuessTime, intToStr e.difficulty.code] := by
  unfold entryRow
  rw [cppSplit_append_delim (comma_not_mem_intToStr _),
    cppSplit_append_delim h,
    cppSplit_append_delim (comma_not_mem_intToStr _),
    cppSplit_append_delim (comma_not_mem_intToStr _),
    cppSplit_append_delim (comma_not_mem_intToStr _),
    cppSplit_append_delim (comma_not_mem_format2 _),
    cppSplit_append_delim (comma_not_mem_format2 _),
    cppSplit_append_delim (comma_not_mem_format2 _),
    cppSplit_no_delim (comma_not_mem_intToStr _) (intToStr_ne_nil _)]

theorem parseLeaderboardLine_entryRow {e : LeaderboardEntry} (h : ',' ∉ e.name.data)
    (hr : intFits e.rank) (hs : intFits e.score) (hg : intFits e.games)
    (ha : intFits e.attempts) (dt : dblFits e.averageTime) (dacc : dblFits e.accuracy)
    (dg : dblFits e.averageGuessTime) :
    parseLeaderboardLine (entryRow e) = some (reparse e) := by
  have htrim : ¬ ((trimList (entryRow e)).isEmpty = true) := by
    rw [List.isEmpty_iff]
    exact trimList_ne_nil (comma_mem_entryRow e) (by decide)
  have hdiff : (if e.difficulty.code = 1 then Difficulty.easy
      else if e.difficulty.code = 2 then Difficulty.medium
      else if e.difficulty.code = 3 then Difficulty.hard
      else Difficulty.easy) = e.difficulty := by
    cases e.difficulty <;> rfl
  have hdf : intFits e.difficulty.code := by
    cases e.difficulty <;> exact ⟨by decide, by decide⟩
  unfold parseLeaderboardLine
  rw [if_neg htrim, entryRow_split h]
  rw [if_neg (by simp)]
  unfold parseEntryFields
  simp only [List.getD_cons_zero, List.getD_cons_succ]
  rw [parseIntList_intToStr e.rank hr.1 hr.2, parseIntList_intToStr e.score hs.1 hs.2,
    parseIntList_intToStr e.games hg.1 hg.2,
    parseIntList_intToStr e.attempts ha.1 ha.2,
    parseRatList_format2 e.averageTime dt, parseRatList_format2 e.accuracy dacc,
    parseRatList_format2 e.averageGuessTime dg,
    parseIntList_intToStr e.difficulty.code hdf.1 hdf.2]
  simp only [Option.some_bind]
  rw [hdiff]
  rfl

theorem parseLeaderboardLine_entryRow_none {e : LeaderboardEntry}
    (h : ',' ∈ e.name.data) : parseLeaderboardLine (entryRow e) = none := by
  have htrim : ¬ ((trimList (entryRow e)).isEmpty = true) := by
    rw [List.isEmpty_iff]
    exact trimList_ne_nil (comma_mem_entryRow e) (by decide)
  have hne : entryRow e ≠ [] := by
    intro hnil
    rw [hnil] at htrim
    exact htrim rfl
  have hlast : (entryRow e).getLast? ≠ some ',' := by
    unfold entryRow
    rw [getLast?_append_cons _ _ _ (by simp), getLast?_append_cons _ _ _ (by simp),
      getLast?_append_cons _ _ _ (by simp), getLast?_append_cons _ _ _ (by simp),
      getLast?_append_cons _ _ _ (by simp), getLast?_append_cons _ _ _ (by simp),
      getLast?_append_cons _ _ _ (by simp),
      getLast?_append_cons _ _ _ (intToStr_ne_nil _)]
    intro hsome
    exact comma_not_mem_intToStr _ (List.mem_of_getLast?_eq_some hsome)
  have hnamec : 1 ≤ e.name.data.count ',' := List.count_pos_iff.mpr h
  have hcount : 9 ≤ (entryRow e).count ',' := by
    unfold entryRow
    simp only [List.count_append, List.count_cons_self]
    omega
  have hlen : (cppSplit ',' (entryRow e)).length = (entryRow e).count ',' + 1 :=
    cppSplit_length_eq _ hne hlast
  unfold parseLeaderboardLine
  rw [if_neg htrim, if_pos (by omega)]

/-! ### Round-trip assembly -/

/-- The persisted identity of a leaderboard row: the fields the round-trip
claim is about. -/
def tupleOf (e : LeaderboardEntry) : ℤ × String × ℤ × ℤ × Difficulty :=
  (e.score, e.name, e.games, e.attempts, e.difficulty)

theorem tupleOf_reparse (e : LeaderboardEntry) : tupleOf (reparse e) = tupleOf e := rfl

theorem map_tupleOf_assignRanks :
    ∀ (l : List LeaderboardEntry) (i : ℤ),
      (assignRanks i l).map tupleOf = l.map tupleOf := by
  intro l
  induction l with
  | nil => intro i; rfl
  | cons e es ih =>
    intro i
    show tupleOf { e with rank := i } :: (assignRanks (i + 1) es).map tupleOf = _
    rw [ih (i + 1)]
    rfl

theorem assignRanks_length :
    ∀ (l : List LeaderboardEntry) (i : ℤ), (assignRanks i l).length = l.length := by
  intro l
  induction l with
  | nil => intro i; rfl
  | cons e es ih =>
    intro i
    show (assignRanks (i + 1) es).length + 1 = es.length + 1
    rw [ih (i + 1)]

theorem filterMap_parse_map_entryRow :
    ∀ lb : List LeaderboardEntry,
      (∀ e ∈ lb, intFits e.rank ∧ intFits e.score ∧ intFits e.games ∧ intFits e.attempts) →
      (∀ e ∈ lb, dblFits e.averageTime ∧ dblFits e.accuracy ∧ dblFits e.averageGuessTime) →
      (lb.map entryRow).filterMap parseLeaderboardLine =
        (lb.filter (fun e => decide (',' ∉ e.name.data))).map reparse := by
  intro lb
  induction lb with
  | nil =>
    intro _ _
    rfl
  | cons e es ih =>
    intro hints hdbls
    have hie := hints e (List.mem_cons_self _ _)
    have hde := hdbls e (List.mem_cons_self _ _)
    have ihr := ih (fun x hx => hints x (List.mem_cons_of_mem _ hx))
      (fun x hx => hdbls x (List.mem_cons_of_mem _ hx))
    show (entryRow e :: es.map entryRow).filterMap parseLeaderboardLine = _
    by_cases hc : ',' ∈ e.name.data
    · rw [List.filterMap_cons_none (parseLeaderboardLine_entryRow_none hc), ihr,
        List.filter_cons_of_neg (by simpa using hc)]
    · rw [List.filterMap_cons_some
        (parseLeaderboardLine_entryRow hc hie.1 hie.2.1 hie.2.2.1 hie.2.2.2
          hde.1 hde.2.1 hde.2.2), ihr,
        List.filter_cons_of_pos (by simpa using hc)]
      rfl

theorem lbGe_reparse {a b : LeaderboardEntry} (h : lbGe a b) :
    lbGe (reparse a) (reparse b) := by
  unfold lbGe reparse at *
  rcases h with h | ⟨h1, h2⟩
  · exact Or.inl h
  · refine Or.inr ⟨h1, ?_⟩
    show roundTo2 b.accuracy ≤ roundTo2 a.accuracy
    unfold roundTo2
    have := qround_mono (mul_le_mul_of_nonneg_right h2 (by norm_num : (0:ℚ) ≤ 100))
    have hcast : ((qround (b.accuracy * 100) : ℤ) : ℚ) ≤ ((qround (a.accuracy * 100) : ℤ) : ℚ) := by
      exact_mod_cast this
    linarith

theorem pairwise_reparse_filter {lb : List LeaderboardEntry}
    (h : lb.Pairwise lbGe) :
    ((lb.filter (fun e => decide (',' ∉ e.name.data))).map reparse).Pairwise lbGe :=
  ((h.sublist (List.filter_sublist lb)).map reparse fun _ _ => lbGe_reparse)

/-- Strict descent of the keys *as the file records them*: score strictly
descending, score ties separated even after the accuracies are rounded to the
two decimals the CSV keeps.  Under such keys the sorted order is unique, so
the re-sort on load is pinned by `std::sort`'s contract alone. -/
def lbGtR (a b : LeaderboardEntry) : Prop :=
  b.score < a.score ∨ (a.score = b.score ∧ roundTo2 b.accuracy < roundTo2 a.accuracy)

theorem lbGt_reparse {a b : LeaderboardEntry} (h : lbGtR a b) :
    lbGt (reparse a) (reparse b) := h

theorem pairwise_strict_reparse_filter {lb : List LeaderboardEntry}
    (h : lb.Pairwise lbGtR) :
    ((lb.filter (fun e => decide (',' ∉ e.name.data))).map reparse).Pairwise lbGt :=
  ((h.sublist (List.filter_sublist lb)).map reparse fun _ _ => lbGt_reparse)

theorem headerRow_no_newline : '\n' ∉ headerRow := by decide

theorem containsRANK_headerRow : containsRANK headerRow = true := by decide

/-- **C5 (amended).**  For a leaderboard whose persisted sort keys are
strictly descending (score strictly decreasing, score ties separated even
after the accuracies are rounded to the CSV's two decimals — so the sorted
order is unique and no appeal to the unspecified tie behaviour of the
unstable `std::sort` is needed), whose entry names contain no newline, whose
`int` fields are in `int` range and whose `double` fields are finite — all
automatic for values the program itself produced — saving with
`saveLeaderboardToFile` and loading the produced file back with
`loadLeaderboardFromFile` reproduces exactly the same sequence of
(score, name, games, attempts, difficulty) tuples, except for the rows whose
name contains a comma: those rows do not split into 9 fields on load, fail
to parse, and are dropped. -/
theorem saveLoad_roundTrip (s s' : GameState) (t t' : ℚ)
    (hsorted : s.leaderboard.Pairwise lbGtR)
    (hnames : ∀ e ∈ s.leaderboard, '\n' ∉ e.name.data)
    (hints : ∀ e ∈ s.leaderboard,
      intFits e.rank ∧ intFits e.score ∧ intFits e.games ∧ intFits e.attempts)
    (hdbls : ∀ e ∈ s.leaderboard,
      dblFits e.averageTime ∧ dblFits e.accuracy ∧ dblFits e.averageGuessTime) :
    (saveLeaderboardToFile s true t).1 = true ∧
    ((loadLeaderboardFromFile s' ((saveLeaderboardToFile s true t).2.1) t').2).leaderboard.map
        tupleOf =
      (s.leaderboard.filter (fun e => decide (',' ∉ e.name.data))).map tupleOf := by
  refine ⟨rfl, ?_⟩
  have hsave : (saveLeaderboardToFile s true t).2.1 =
      some (leaderboardFileText s.leaderboard) := rfl
  rw [hsave]
  have hload : ((loadLeaderboardFromFile s' (some (leaderboardFileText s.leaderboard)) t').2).leaderboard =
      assignRanks 1 (sortLeaderboard (linesToEntries
        (cppSplit '\n' (leaderboardFileText s.leaderboard).data))) := rfl
  rw [hload]
  have hsplitlines : cppSplit '\n' (leaderboardFileText s.leaderboard).data =
      headerRow :: s.leaderboard.map entryRow := by
    show cppSplit '\n' (((headerRow :: s.leaderboard.map entryRow).map (· ++ ['\n'])).flatten) = _
    apply cppSplit_flatten
    intro l hl
    rcases List.mem_cons.mp hl with rfl | hl
    · exact headerRow_no_newline
    · obtain ⟨e, he, rfl⟩ := List.mem_map.mp hl
      exact entryRow_no_newline (hnames e he)
  rw [hsplitlines]
  have hlines : linesToEntries (headerRow :: s.leaderboard.map entryRow) =
      (s.leaderboard.map entryRow).filterMap parseLeaderboardLine := by
    show (if containsRANK headerRow = true then []
        else (parseLeaderboardLine headerRow).toList) ++
        (s.leaderboard.map entryRow).filterMap parseLeaderboardLine = _
    rw [containsRANK_headerRow, if_pos rfl, List.nil_append]
  rw [hlines, filterMap_parse_map_entryRow s.leaderboard hints hdbls,
    eq_of_perm_of_strict (sortLeaderboard_perm _) (sortLeaderboard_pairwise _)
      (pairwise_strict_reparse_filter hsorted),
    map_tupleOf_assignRanks, List.map_map]
  have : tupleOf ∘ reparse = tupleOf := funext tupleOf_reparse
  rw [this]

/-- Zero is a finite double magnitude. -/
theorem dblFits_zero : dblFits 0 := by
  unfold dblFits maxDouble
  rw [abs_zero]
  norm_num

/-- A sorted two-entry leaderboard used as the round-trip witness state. -/
def rtEntryHi : LeaderboardEntry :=
  { rank := 1, name := "Bea", score := 2, games := 1, attempts := 1,
    averageTime := 0, accuracy := 0, averageGuessTime := 0, difficulty := .medium }

/-- The lower-scoring entry. -/
def rtEntryLo : LeaderboardEntry :=
  { rank := 2, name := "Al", score := 1, games := 1, attempts := 1,
    averageTime := 0, accuracy := 0, averageGuessTime := 0, difficulty := .easy }

/-- Witness for C5 (amended): a concrete sorted leaderboard with newline-free,
comma-free names round-trips to exactly its own tuple sequence. -/
theorem saveLoad_roundTrip_witness :
    (saveLeaderboardToFile
        { initialState with leaderboard := [rtEntryHi, rtEntryLo] } true 0).1 = true ∧
    ((loadLeaderboardFromFile initialState
        ((saveLeaderboardToFile
          { initialState with leaderboard := [rtEntryHi, rtEntryLo] } true 0).2.1)
        0).2).leaderboard.map tupleOf =
      ([rtEntryHi, rtEntryLo].filter (fun e => decide (',' ∉ e.name.data))).map tupleOf := by
  exact saveLoad_roundTrip
    { initialState with leaderboard := [rtEntryHi, rtEntryLo] } initialState 0 0
    (by
      refine List.pairwise_cons.mpr ⟨?_, ?_⟩
      · intro b hb
        rcases List.mem_singleton.mp hb with rfl
        exact Or.inl (by decide)
      · simp)
    (by
      intro e he
      rcases List.mem_cons.mp he with rfl | he
      · decide
      · rcases List.mem_singleton.mp he with rfl
        decide)
    (by decide)
    (by
      intro e he
      rcases List.mem_cons.mp he with rfl | he
      · exact ⟨dblFits_zero, dblFits_zero, dblFits_zero⟩
      · rcases List.mem_singleton.mp he with rfl
        exact ⟨dblFits_zero, dblFits_zero, dblFits_zero⟩)

/-- **C5 (counterexample).**  The claim as stated quantifies over *every*
leaderboard.  For the unsorted leaderboard `[rtEntryLo, rtEntryHi]` (scores 1
then 2), every row parses back, yet the load re-sorts, so the loaded tuple
sequence is reversed and differs from the saved one. -/
theorem saveLoad_roundTrip_cex :
    ¬ (((loadLeaderboardFromFile initialState
          ((saveLeaderboardToFile
            { initialState with leaderboard := [rtEntryLo, rtEntryHi] } true 0).2.1)
          0).2).leaderboard.map tupleOf =
        [rtEntryLo, rtEntryHi].map tupleOf) := by
  intro hcontra
  have hsave : (saveLeaderboardToFile
      { initialState with leaderboard := [rtEntryLo, rtEntryHi] } true 0).2.1 =
      some (leaderboardFileText [rtEntryLo, rtEntryHi]) := rfl
  rw [hsave] at hcontra
  have hload : ((loadLeaderboardFromFile initialState
      (some (leaderboardFileText [rtEntryLo, rtEntryHi])) 0).2).leaderboard =
      assignRanks 1 (sortLeaderboard (linesToEntries
        (cppSplit '\n' (leaderboardFileText [rtEntryLo, rtEntryHi]).data))) := rfl
  rw [hload] at hcontra
  have hsplitlines : cppSplit '\n' (leaderboardFileText [rtEntryLo, rtEntryHi]).data =
      headerRow :: [entryRow rtEntryLo, entryRow rtEntryHi] := by
    show cppSplit '\n'
      (((headerRow :: [rtEntryLo, rtEntryHi].map entryRow).map (· ++ ['\n'])).flatten) = _
    apply cppSplit_flatten
    intro l hl
    rcases List.mem_cons.mp hl with rfl | hl
    · exact headerRow_no_newline
    · obtain ⟨e, he, rfl⟩ := List.mem_map.mp hl
      rcases List.mem_cons.mp he with rfl | he
      · exact entryRow_no_newline (by decide)
      · rcases List.mem_singleton.mp he with rfl
        exact entryRow_no_newline (by decide)
  rw [hsplitlines] at hcontra
  have hlines : linesToEntries (headerRow :: [entryRow rtEntryLo, entryRow rtEntryHi]) =
      [entryRow rtEntryLo, entryRow rtEntryHi].filterMap parseLeaderboardLine := by
    show (if containsRANK headerRow = true then []
        else (parseLeaderboardLine headerRow).toList) ++
        [entryRow rtEntryLo, entryRow rtEntryHi].filterMap parseLeaderboardLine = _
    rw [containsRANK_headerRow, if_pos rfl, List.nil_append]
  rw [hlines] at hcontra
  have hfm : [entryRow rtEntryLo, entryRow rtEntryHi].filterMap parseLeaderboardLine =
      [reparse rtEntryLo, reparse rtEntryHi] := by
    rw [show [entryRow rtEntryLo, entryRow rtEntryHi] =
      [rtEntryLo, rtEntryHi].map entryRow from rfl]
    rw [filterMap_parse_map_entryRow [rtEntryLo, rtEntryHi] (by decide)
      (by
        intro e he
        rcases List.mem_cons.mp he with rfl | he
        · exact ⟨dblFits_zero, dblFits_zero, dblFits_zero⟩
        · rcases List.mem_singleton.mp he with rfl
          exact ⟨dblFits_zero, dblFits_zero, dblFits_zero⟩)]
    rw [List.filter_cons_of_pos (by decide), List.filter_cons_of_pos (by decide)]
    rfl
  rw [hfm] at hcontra
  have hsort : sortLeaderboard [reparse rtEntryLo, reparse rtEntryHi] =
      [reparse rtEntryHi, reparse rtEntryLo] := by
    refine eq_of_perm_of_strict
      ((sortLeaderboard_perm _).trans
        (List.Perm.swap (reparse rtEntryHi) (reparse rtEntryLo) []))
      (sortLeaderboard_pairwise _) ?_
    refine List.pairwise_cons.mpr ⟨?_, ?_⟩
    · intro z hz
      rcases List.mem_singleton.mp hz with rfl
      exact Or.inl (by decide)
    · simp
  rw [hsort, map_tupleOf_assignRanks] at hcontra
  have hne : tupleOf rtEntryHi ≠ tupleOf rtEntryLo := by decide
  have : tupleOf (reparse rtEntryHi) = tupleOf rtEntryLo := by
    have := congrArg (fun l => l.headD (tupleOf rtEntryLo)) hcontra
    simpa using this
  rw [tupleOf_reparse] at this
  exact hne this

/-! ### Leaderboard invariant (C3) -/

theorem rankSort_sorted_ranked (l : List LeaderboardEntry) :
    (assignRanks 1 (sortLeaderboard l)).Pairwise lbGe ∧
    (assignRanks 1 (sortLeaderboard l)).map (·.rank) =
      (List.range' 1 (assignRanks 1 (sortLeaderboard l)).length).map (fun k : ℕ => (k : ℤ)) := by
  refine ⟨pairwise_assignRanks (sortLeaderboard_pairwise l), ?_⟩
  rw [assignRanks_map_rank, assignRanks_length]
  have h1 : (1 : ℤ) = ((1 : ℕ) : ℤ) := rfl
  rw [h1, rankSeq_eq_range']

/-- **C3.** Immediately after every `updateLeaderboard` call and after every
successful `loadLeaderboardFromFile`, the leaderboard is sorted by descending
score with ties broken by descending accuracy, and the rank fields are the
contiguous sequence `1..N` in that order. -/
theorem leaderboard_sorted_ranked (s : GameState) (art : ℚ) (text : String) (t : ℚ) :
    ((updateLeaderboard s art).leaderboard.Pairwise lbGe ∧
      (updateLeaderboard s art).leaderboard.map (·.rank) =
        (List.range' 1 (updateLeaderboard s art).leaderboard.length).map
          (fun k : ℕ => (k : ℤ))) ∧
    ((loadLeaderboardFromFile s (some text) t).1 = true ∧
      (loadLeaderboardFromFile s (some text) t).2.leaderboard.Pairwise lbGe ∧
      (loadLeaderboardFromFile s (some text) t).2.leaderboard.map (·.rank) =
        (List.range' 1 (loadLeaderboardFromFile s (some text) t).2.leaderboard.length).map
          (fun k : ℕ => (k : ℤ))) := by
  constructor
  · exact rankSort_sorted_ranked _
  · exact ⟨rfl, (rankSort_sorted_ranked _).1, (rankSort_sorted_ranked _).2⟩

/-! ### Open-failure semantics (C8) -/

/-- **C8.** Every file operation handed an unopenable path (`none` content /
`canOpen = false`) returns `false` and leaves the entire session state — word
bank, leaderboard, scores, and every metrics counter including the
file-operation count and the I/O-time metric — exactly as it was.  (No
exception is modelled because none escapes these functions in the source:
stream failures are checked, not thrown.) -/
theorem fileOps_open_failure (s : GameState) (t : ℚ) :
    loadWordsFromFile s none t = (false, s) ∧
    loadLeaderboardFromFile s none t = (false, s) ∧
    saveLeaderboardToFile s false t = (false, none, s) ∧
    saveMetricsToFile s false t = (false, none, s) :=
  ⟨rfl, rfl, rfl, rfl⟩

/-! ### Row-level load semantics (C9) -/

theorem parseEntryFields_success {parts : List (List Char)} {e : LeaderboardEntry}
    (h : parseEntryFields parts = some e) :
    (∃ v, parseIntList (parts.getD 0 []) = some v) ∧
    (∃ v, parseIntList (parts.getD 2 []) = some v) ∧
    (∃ v, parseIntList (parts.getD 3 []) = some v) ∧
    (∃ v, parseIntList (parts.getD 4 []) = some v) ∧
    (∃ v, parseRatList (parts.getD 5 []) = some v) ∧
    (∃ v, parseRatList (parts.getD 6 []) = some v) ∧
    (∃ v, parseRatList (parts.getD 7 []) = some v) ∧
    (∃ d, parseIntList (parts.getD 8 []) = some d ∧
      e.difficulty = (if d = 1 then Difficulty.easy else if d = 2 then Difficulty.medium
        else if d = 3 then Difficulty.hard else Difficulty.easy)) := by
  unfold parseEntryFields at h
  obtain ⟨rank, h0, h⟩ := Option.bind_eq_some.mp h
  obtain ⟨score, h2, h⟩ := Option.bind_eq_some.mp h
  obtain ⟨games, h3, h⟩ := Option.bind_eq_some.mp h
  obtain ⟨att, h4, h⟩ := Option.bind_eq_some.mp h
  obtain ⟨avgT, h5, h⟩ := Option.bind_eq_some.mp h
  obtain ⟨acc, h6, h⟩ := Option.bind_eq_some.mp h
  obtain ⟨avgG, h7, h⟩ := Option.bind_eq_some.mp h
  obtain ⟨diff, h8, h⟩ := Option.bind_eq_some.mp h
  have he := Option.some.injEq _ _ ▸ h
  refine ⟨⟨rank, h0⟩, ⟨score, h2⟩, ⟨games, h3⟩, ⟨att, h4⟩, ⟨avgT, h5⟩, ⟨acc, h6⟩,
    ⟨avgG, h7⟩, ⟨diff, h8, ?_⟩⟩
  rw [← Option.some.injEq _ _ |>.mp h]

theorem parseLeaderboardLine_success {line : List Char} {e : LeaderboardEntry}
    (h : parseLeaderboardLine line = some e) :
    (cppSplit ',' line).length = 9 ∧
    parseEntryFields (cppSplit ',' line) = some e := by
  unfold parseLeaderboardLine at h
  by_cases ht : (trimList line).isEmpty = true
  · rw [if_pos ht] at h; cases h
  · rw [if_neg ht] at h
    by_cases hl : (cppSplit ',' line).length ≠ 9
    · rw [if_pos hl] at h; cases h
    · rw [if_neg hl] at h
      exact ⟨by omega, h⟩

/-- **C9.** During `loadLeaderboardFromFile`: (a) a successful load returns
`true` and fully replaces the in-memory leaderboard with the re-sorted,
re-ranked parsed rows, whatever it held before; (b) a first line containing
the token `RANK` is skipped as the header; (c) a line that does not split into
exactly 9 comma-separated fields contributes no entry; (d) a line any of whose
numeric fields fails integer/float parsing contributes no entry, while the
other lines still load; (e) an otherwise valid row whose difficulty code is
not 1, 2 or 3 gets difficulty Easy. -/
theorem loadLeaderboard_row_semantics (s : GameState) (text : String) (t : ℚ) :
    ((loadLeaderboardFromFile s (some text) t).1 = true ∧
      (loadLeaderboardFromFile s (some text) t).2.leaderboard =
        assignRanks 1 (sortLeaderboard (linesToEntries (cppSplit '\n' text.data)))) ∧
    (∀ first rest, containsRANK first = true →
      linesToEntries (first :: rest) = rest.filterMap parseLeaderboardLine) ∧
    (∀ line : List Char, (cppSplit ',' line).length ≠ 9 →
      parseLeaderboardLine line = none) ∧
    (∀ line : List Char,
      (parseIntList ((cppSplit ',' line).getD 0 []) = none ∨
       parseIntList ((cppSplit ',' line).getD 2 []) = none ∨
       parseIntList ((cppSplit ',' line).getD 3 []) = none ∨
       parseIntList ((cppSplit ',' line).getD 4 []) = none ∨
       parseRatList ((cppSplit ',' line).getD 5 []) = none ∨
       parseRatList ((cppSplit ',' line).getD 6 []) = none ∨
       parseRatList ((cppSplit ',' line).getD 7 []) = none ∨
       parseIntList ((cppSplit ',' line).getD 8 []) = none) →
      parseLeaderboardLine line = none) ∧
    (∀ (line : List Char) (e : LeaderboardEntry) (d : ℤ),
      parseLeaderboardLine line = some e →
      parseIntList ((cppSplit ',' line).getD 8 []) = some d →
      d ≠ 1 → d ≠ 2 → d ≠ 3 → e.difficulty = Difficulty.easy) := by
  refine ⟨⟨rfl, rfl⟩, ?_, ?_, ?_, ?_⟩
  · intro first rest h
    show (if containsRANK first = true then []
        else (parseLeaderboardLine first).toList) ++ rest.filterMap parseLeaderboardLine = _
    rw [h, if_pos rfl, List.nil_append]
  · intro line h
    unfold parseLeaderboardLine
    by_cases ht : (trimList line).isEmpty = true
    · rw [if_pos ht]
    · rw [if_neg ht, if_pos h]
  · intro line hdisj
    rcases hres : parseLeaderboardLine line with _ | e
    · rfl
    · exfalso
      obtain ⟨-, hfields⟩ := parseLeaderboardLine_success hres
      obtain ⟨⟨v0, h0⟩, ⟨v2, h2⟩, ⟨v3, h3⟩, ⟨v4, h4⟩, ⟨v5, h5⟩, ⟨v6, h6⟩, ⟨v7, h7⟩,
        ⟨d, h8, -⟩⟩ := parseEntryFields_success hfields
      rcases hdisj with h | h | h | h | h | h | h | h <;>
        simp_all
  · intro line e d hline h8 hd1 hd2 hd3
    obtain ⟨-, hfields⟩ := parseLeaderboardLine_success hline
    obtain ⟨-, -, -, -, -, -, -, ⟨d', h8', hdiff⟩⟩ := parseEntryFields_success hfields
    have hdd : d' = d := by
      rw [h8'] at h8
      exact (Option.some.injEq _ _ ▸ h8)
    subst hdd
    rw [hdiff, if_neg hd1, if_neg hd2, if_neg hd3]

/-- Witness for C9 at concrete inputs: a first line containing `RANK` is
skipped; `"1,2,3"` (3 fields) is dropped; a 9-field row with the non-numeric
score `"xx"` is dropped; and the 9-field row `"5,Bob,10,2,3,0.00,0.00,0.00,7"`
parses with its out-of-range difficulty code 7 defaulted to Easy. -/
theorem loadLeaderboard_row_semantics_witness :
    linesToEntries [headerRow] = [] ∧
    parseLeaderboardLine "1,2,3".data = none ∧
    parseLeaderboardLine "1,Bob,xx,2,3,0.00,0.00,0.00,1".data = none ∧
    (∃ e, parseLeaderboardLine "5,Bob,10,2,3,0.00,0.00,0.00,7".data = some e ∧
      e.difficulty = Difficulty.easy) := by
  have h := loadLeaderboard_row_semantics initialState "" 0
  refine ⟨?_, ?_, ?_, ?_⟩
  · exact h.2.1 headerRow [] (by decide)
  · exact h.2.2.1 "1,2,3".data (by decide)
  · exact h.2.2.2.1 "1,Bob,xx,2,3,0.00,0.00,0.00,1".data (by
      right; left; decide)
  · have h00 : natOfDigits ['0'] = 0 := rfl
    have h000 : natOfDigits ['0', '0'] = 0 := rfl
    have hov : (natOfDigits ['0'] : ℚ) + (natOfDigits ['0', '0'] : ℚ) /
        (10 : ℚ) ^ (['0', '0'] : List Char).length < overflowBoundary := by
      rw [h00, h000]
      simp only [overflowBoundary]
      norm_num
    have hun : (natOfDigits ['0'] : ℚ) + (natOfDigits ['0', '0'] : ℚ) /
        (10 : ℚ) ^ (['0', '0'] : List Char).length = 0 ∨
        underflowBoundary ≤ (natOfDigits ['0'] : ℚ) + (natOfDigits ['0', '0'] : ℚ) /
          (10 : ℚ) ^ (['0', '0'] : List Char).length := by
      left
      rw [h00, h000]
      norm_num
    have hq : parseRatList "0.00".data = some ((natOfDigits ['0'] : ℚ) +
        (natOfDigits ['0', '0'] : ℚ) / (10 : ℚ) ^ (['0', '0'] : List Char).length) := by
      rw [show "0.00".data = ['0'] ++ '.' :: ['0', '0'] from rfl]
      exact parseRatList_digits_dot ['0'] ['0', '0'] (by decide) (by decide) (by decide)
        hov hun
    have hrow : ∃ e, parseLeaderboardLine "5,Bob,10,2,3,0.00,0.00,0.00,7".data =
        some e := by
      unfold parseLeaderboardLine
      rw [if_neg (by decide), if_neg (by decide)]
      rw [show cppSplit ',' "5,Bob,10,2,3,0.00,0.00,0.00,7".data =
        [['5'], "Bob".data, "10".data, ['2'], ['3'], "0.00".data, "0.00".data,
         "0.00".data, ['7']] from rfl]
      unfold parseEntryFields
      simp only [List.getD_cons_zero, List.getD_cons_succ]
      rw [show parseIntList ['5'] = some 5 from rfl,
        show parseIntList "10".data = some 10 from rfl,
        show parseIntList ['2'] = some 2 from rfl,
        show parseIntList ['3'] = some 3 from rfl,
        hq,
        show parseIntList ['7'] = some 7 from rfl]
      simp only [Option.some_bind]
      exact ⟨_, rfl⟩
    obtain ⟨e, he⟩ := hrow
    exact ⟨e, he, h.2.2.2.2 _ e 7 he (by rfl) (by decide) (by decide) (by decide)⟩

end WordScramble
